import Mathlib

/-!
Verification of the URL verdict pipeline and flat-file list store of the
scam-URL-detection repository (`code_file/new_testing.py`).

The Python functions `normalize_url`, `get_domain`, `is_valid_url`,
`heuristic_check`, `load_urls_from_file`, `save_to_dynamic_blacklist`,
`domain_exists`, `is_domain_registered` and `perform_blocking_analysis` are
embedded shallowly.  Strings are Lean `String`s (internally processed as
`List Char`); the file system is a map from file names to an optional list of
lines (`none` models an absent or unreadable file); network effects (DNS
resolution, WHOIS probes) are oracles passed in as functions.

Python standard-library helpers used by the code are modelled as well:
`urllib.parse.urlsplit`/`urlunsplit` following CPython (scheme detection,
authority splitting at the first of `/?#`, fragment then query split, the
"Invalid IPv6 URL" bracket-mismatch `ValueError` modelled as `none`, and the
removal of tab/CR/LF characters); `ipaddress.ip_address` acceptance for IPv4
dotted quads (strict octets, no leading zeros) and IPv6 hextet notation
(`::` compression and an embedded IPv4 tail; the zone-id extension of
Python ≥ 3.9 and non-ASCII case mapping are not modelled).  String lowering
is modelled on ASCII letters, and stripping on the common whitespace
characters; both match Python on ASCII input, which is all that the
repository's data contains.
-/

/-- Characters treated as whitespace by the model of Python `str.strip()`. -/
def pySpace (c : Char) : Bool :=
  c = ' ' ∨ c = '\t' ∨ c = '\n' ∨ c = '\r' ∨ c = '\x0b' ∨ c = '\x0c' ∨
  c = '\x1c' ∨ c = '\x1d' ∨ c = '\x1e' ∨ c = '\x1f' ∨ c = '\x85'

/-- Model of Python `str.strip()` (both ends). -/
def pyStrip (l : List Char) : List Char :=
  ((l.dropWhile pySpace).reverse.dropWhile pySpace).reverse

/-- ASCII lower-casing of one character, as Python `str.lower()` acts on
ASCII letters (non-ASCII case mappings are not modelled). -/
def lowerChar : Char → Char
  | 'A' => 'a' | 'B' => 'b' | 'C' => 'c' | 'D' => 'd' | 'E' => 'e' | 'F' => 'f'
  | 'G' => 'g' | 'H' => 'h' | 'I' => 'i' | 'J' => 'j' | 'K' => 'k' | 'L' => 'l'
  | 'M' => 'm' | 'N' => 'n' | 'O' => 'o' | 'P' => 'p' | 'Q' => 'q' | 'R' => 'r'
  | 'S' => 's' | 'T' => 't' | 'U' => 'u' | 'V' => 'v' | 'W' => 'w' | 'X' => 'x'
  | 'Y' => 'y' | 'Z' => 'z'
  | c => c

/-- Model of Python `str.lower()` on a character list. -/
def pyLower (l : List Char) : List Char := l.map lowerChar

/-- `str.lower()` on `String`. -/
def strLower (s : String) : String := ⟨pyLower s.data⟩

/-- `str.strip()` on `String`. -/
def strStrip (s : String) : String := ⟨pyStrip s.data⟩

/-- Python substring containment `pat in hay` (character lists). -/
def hasSub (pat : List Char) : List Char → Bool
  | [] => pat.isPrefixOf []
  | c :: t => pat.isPrefixOf (c :: t) || hasSub pat t

/-- Python substring containment on `String`s: `pat in hay`. -/
def strHasSub (hay pat : String) : Bool := hasSub pat.data hay.data

/-- Non-overlapping left-to-right count of `"//"`, as Python
`url.count("//")` computes for this fixed pattern. -/
def countSS : List Char → Nat
  | '/' :: '/' :: rest => countSS rest + 1
  | _ :: rest => countSS rest
  | [] => 0

/-- Valid characters of a URL scheme after the first (letters, digits,
`+`, `-`, `.`), per `urllib`'s `scheme_chars` and the code's regex
`[a-zA-Z0-9+\-.]`. -/
def isSchemeChar (c : Char) : Bool :=
  c.isAlpha ∨ c.isDigit ∨ c = '+' ∨ c = '-' ∨ c = '.'

/-- ASCII alphabetic character (`url[0].isascii() and url[0].isalpha()`). -/
def asciiAlpha (c : Char) : Bool := c.isAlpha

/-- The code's scheme-presence test `re.match(r'^[a-zA-Z][a-zA-Z0-9+\-.]*://', url)`.
Since `:` is not a scheme character, the regex matches exactly when the
maximal run of scheme characters is followed by `"://"` and starts with an
ASCII letter. -/
def schemeRegexMatch (l : List Char) : Bool :=
  match l with
  | [] => false
  | c :: _ => asciiAlpha c ∧ (l.dropWhile isSchemeChar).take 3 = [':', '/', '/']

/-- ASCII hexadecimal digit. -/
def isHexDig (c : Char) : Bool :=
  c.isDigit ∨ ('a' ≤ c ∧ c ≤ 'f') ∨ ('A' ≤ c ∧ c ≤ 'F')

/-- Python `str.split(sep)` keeping empty parts (used with `.` and `:`). -/
def splitAll (c : Char) : List Char → List (List Char)
  | [] => [[]]
  | d :: rest =>
    if d = c then [] :: splitAll c rest
    else match splitAll c rest with
      | h :: t => (d :: h) :: t
      | [] => [[d]]

/-- Numeric value of a list of ASCII digits. -/
def natOfDigits (l : List Char) : Nat :=
  l.foldl (fun a c => a * 10 + (c.toNat - 48)) 0

/-- One octet of a dotted-quad IPv4 address per `ipaddress._parse_octet`:
1–3 ASCII digits, no leading zero unless the octet is exactly `0`,
value at most 255. -/
def isOctet (p : List Char) : Bool :=
  p ≠ [] ∧ p.length ≤ 3 ∧ p.all Char.isDigit ∧
  (p.length = 1 ∨ p.headD ' ' ≠ '0') ∧ natOfDigits p ≤ 255

/-- Model of `ipaddress.IPv4Address` acceptance: four dot-separated octets. -/
def isIPv4 (l : List Char) : Bool :=
  let parts := splitAll '.' l
  parts.length = 4 ∧ parts.all isOctet

/-- One hextet of an IPv6 address per `ipaddress._parse_hextet`:
1–4 hexadecimal digits. -/
def isHextet (p : List Char) : Bool :=
  p ≠ [] ∧ p.length ≤ 4 ∧ p.all isHexDig

/-- Model of `ipaddress.IPv6Address` acceptance without its zone-id
(`_ip_int_from_string`): colon-separated hextets, at most one `::`
compression standing for at least one zero group, optionally an embedded
IPv4 dotted quad as the last part (which counts as two hextets). -/
def isIPv6Core (l : List Char) : Bool :=
  let parts0 := splitAll ':' l
  if parts0.length < 3 then false else
  match parts0.getLast? with
  | none => false
  | some lastP =>
    match (if '.' ∈ lastP then
             (if isIPv4 lastP then some (parts0.dropLast ++ [['0'], ['0']])
              else none)
           else some parts0) with
    | none => false
    | some parts =>
      if parts.length > 9 then false else
      let n := parts.length
      match (List.range n).filter
          (fun i => decide (0 < i ∧ i < n - 1 ∧ parts.getD i ['x'] = [])) with
      | [] => n = 8 ∧ parts.all isHextet
      | [i] =>
        let firstEmpty := parts.getD 0 ['x'] = []
        let lastEmpty := parts.getD (n - 1) ['x'] = []
        let hi := if firstEmpty then i - 1 else i
        let lo := if lastEmpty then n - i - 2 else n - i - 1
        (firstEmpty → i = 1) ∧ (lastEmpty → i = n - 2) ∧
        hi + lo ≤ 7 ∧
        (parts.take hi).all isHextet ∧ (parts.drop (n - lo)).all isHextet
      | _ => false

/-- Model of `ipaddress.IPv6Address` acceptance including the zone-id
extension of Python ≥ 3.9 (`_split_scope_id`): an optional `%zone` suffix
whose zone is non-empty and contains no further `%`. -/
def isIPv6 (l : List Char) : Bool :=
  if '%' ∈ l then
    let addr := l.takeWhile (fun c => c ≠ '%')
    let scope := match l.dropWhile (fun c => c ≠ '%') with
      | _ :: r => r
      | [] => []
    scope ≠ [] ∧ '%' ∉ scope ∧ isIPv6Core addr
  else isIPv6Core l

/-- Model of `ipaddress.ip_address` acceptance: IPv4 first, then IPv6. -/
def isIpAddr (l : List Char) : Bool := isIPv4 l ∨ isIPv6 l

/-- The IPvFuture form accepted by `urllib._check_bracketed_host`:
regex `\Av[a-fA-F0-9]+\..+\Z`. -/
def isIPvFuture (l : List Char) : Bool :=
  match l with
  | 'v' :: rest =>
    let hx := rest.takeWhile isHexDig
    let dotTail : Bool := match rest.drop hx.length with
      | '.' :: tl => tl ≠ []
      | _ => false
    hx ≠ [] ∧ dotTail
  | _ => false

/-- `urllib._check_bracketed_host` (CPython ≥ 3.11): a bracketed host must
be an IPvFuture (when it starts with `v`) or parse as an IP address that is
not IPv4. Returns `false` when the check raises. -/
def bracketedHostOk (h : List Char) : Bool :=
  if h.headD ' ' = 'v' then isIPvFuture h
  else isIpAddr h ∧ ¬ isIPv4 h

/-- Characters delimiting the authority (netloc) in `urllib`'s
`_splitnetloc`: the first of `/`, `?`, `#` ends the netloc. -/
def notDelim (c : Char) : Bool := ¬ (c = '/' ∨ c = '?' ∨ c = '#')

/-- `urlsplit`'s removal of tab, CR and LF characters. -/
def stripTabsCRLF (l : List Char) : List Char :=
  l.filter (fun c => ¬ (c = '\t' ∨ c = '\r' ∨ c = '\n'))

/-- Scheme recognition of `urllib.parse.urlsplit`: the prefix before the
first `:` is taken as the (lower-cased) scheme when it is non-empty, starts
with an ASCII letter and consists of scheme characters; otherwise no scheme
is split off.  Returns `(scheme, remainder)`. -/
def schemeOk (pre : List Char) : Bool :=
  pre ≠ [] ∧ asciiAlpha (pre.headD ' ') ∧ pre.all isSchemeChar

def splitScheme (l : List Char) : List Char × List Char :=
  match l.dropWhile (fun c => c ≠ ':') with
  | _ :: rest =>
    if schemeOk (l.takeWhile (fun c => c ≠ ':')) then
      (pyLower (l.takeWhile (fun c => c ≠ ':')), rest)
    else ([], l)
  | [] => ([], l)

/-- Split at the first occurrence of `c`: Python `l.split(c, 1)` giving
`(before, after)`; when `c` does not occur the second component is empty
(which coincides with Python's behaviour for the purposes of `urlsplit`,
where an absent delimiter and an empty final part act identically). -/
def splitFirst (c : Char) (l : List Char) : List Char × List Char :=
  (l.takeWhile (fun d => d ≠ c), (l.dropWhile (fun d => d ≠ c)).tail)

/-- The content between the first `[` and the first following `]` of a
netloc (`netloc.partition('[')[2].partition(']')[0]`). -/
def bracketContent (netloc : List Char) : List Char :=
  (netloc.dropWhile (fun c => c ≠ '[')).tail.takeWhile (fun c => c ≠ ']')

/-- Model of `urllib.parse.urlsplit` (CPython 3.11): strips leading
C0-control/space characters, removes tab/CR/LF, recognises the scheme,
splits the authority after a leading `"//"` at the first `/?#`, raises
`ValueError` (modelled `none`) on a bracket mismatch or an invalid
bracketed host in the authority, then splits fragment (first `#`) and
query (first `?`). The NFKC check of `_checknetloc`, which concerns only
non-ASCII netlocs, is not modelled.
Result: `(scheme, netloc, path, query, fragment)`. -/
def splitPQF (l : List Char) : List Char × List Char × List Char :=
  ((splitFirst '?' (splitFirst '#' l).1).1,
   (splitFirst '?' (splitFirst '#' l).1).2,
   (splitFirst '#' l).2)

/-- The netloc-bearing arm of `urlsplit`: bracket checks, then the
fragment/query split of the part after the authority. -/
def pyUrlsplitNetloc (scheme netloc rest2 : List Char) :
    Option (List Char × List Char × List Char × List Char × List Char) :=
  if (('[' ∈ netloc) ≠ (']' ∈ netloc)) then none
  else if '[' ∈ netloc ∧ ']' ∈ netloc ∧ ¬ bracketedHostOk (bracketContent netloc) then none
  else some (scheme, netloc, (splitPQF rest2).1, (splitPQF rest2).2.1, (splitPQF rest2).2.2)

/-- The sanitization `urlsplit` applies before parsing: strip leading
C0-control/space characters, remove tab/CR/LF. -/
def preUrl (url0 : List Char) : List Char :=
  stripTabsCRLF (url0.dropWhile (fun c => c ≤ ' '))

def pyUrlsplit (url0 : List Char) :
    Option (List Char × List Char × List Char × List Char × List Char) :=
  if ((splitScheme (preUrl url0)).2.take 2 = ['/', '/']) then
    pyUrlsplitNetloc (splitScheme (preUrl url0)).1
      (((splitScheme (preUrl url0)).2.drop 2).takeWhile notDelim)
      (((splitScheme (preUrl url0)).2.drop 2).dropWhile notDelim)
  else
    some ((splitScheme (preUrl url0)).1, [], (splitPQF (splitScheme (preUrl url0)).2).1,
          (splitPQF (splitScheme (preUrl url0)).2).2.1,
          (splitPQF (splitScheme (preUrl url0)).2).2.2)

/-- The schemes of `urllib.parse.uses_netloc` (full CPython list). -/
def usesNetloc : List (List Char) :=
  ["".data, "ftp".data, "http".data, "gopher".data, "nntp".data,
   "telnet".data, "imap".data, "wais".data, "file".data, "mms".data,
   "https".data, "shttp".data, "snews".data, "prospero".data, "rtsp".data,
   "rtsps".data, "rtspu".data, "rsync".data, "svn".data, "svn+ssh".data,
   "sftp".data, "nfs".data, "git".data, "git+ssh".data, "ws".data, "wss".data]

/-- Model of `urllib.parse.urlunsplit` (CPython 3.11): the `//` authority
marker is emitted when the netloc is non-empty, or when the scheme uses a
netloc and the path does not already start with `//`. -/
def unsplitCore (scheme netloc path : List Char) : List Char :=
  if netloc ≠ [] ∨ (scheme ≠ [] ∧ scheme ∈ usesNetloc ∧ path.take 2 ≠ ['/', '/']) then
    '/' :: '/' :: (netloc ++ (if path ≠ [] ∧ path.headD ' ' ≠ '/' then '/' :: path else path))
  else path

def withScheme (scheme u : List Char) : List Char :=
  if scheme ≠ [] then scheme ++ ':' :: u else u

def withQuery (u query : List Char) : List Char :=
  if query ≠ [] then u ++ '?' :: query else u

def withFrag (u frag : List Char) : List Char :=
  if frag ≠ [] then u ++ '#' :: frag else u

def pyUrlunsplit (scheme netloc path query frag : List Char) : List Char :=
  withFrag (withQuery (withScheme scheme (unsplitCore scheme netloc path)) query) frag

/-- Python `str.rstrip('/')`. -/
def rstripSlash (l : List Char) : List Char :=
  (l.reverse.dropWhile (fun c => c = '/')).reverse

/-- The part of a netloc after its last `@` (Python `netloc.split("@")[-1]`,
also `rpartition('@')[2]`); the whole list when `@` is absent. -/
def afterLastAt (l : List Char) : List Char :=
  (l.reverse.takeWhile (fun c => c ≠ '@')).reverse

/-- `"http://"` as a character list. -/
def httpPre : List Char := ['h', 't', 't', 'p', ':', '/', '/']

/-- `scheme = (parts.scheme or "http").lower()`. -/
def normScheme (sc : List Char) : List Char :=
  pyLower (if sc = [] then ['h', 't', 't', 'p'] else sc)

/-- The netloc processing of `normalize_url`: lower-case, then keep only
the part after the last `@` when one is present. -/
def normNetloc (nl : List Char) : List Char :=
  if '@' ∈ pyLower nl then afterLastAt (pyLower nl) else pyLower nl

/-- The path processing of `normalize_url`: strip trailing slashes (the
`path == "/"` special case of the code is unreachable after `rstrip`). -/
def normPath (pa : List Char) : List Char :=
  if rstripSlash pa = ['/'] then [] else rstripSlash pa

/-- Reassembly step of `normalize_url` from the split components. -/
def normAssemble :
    List Char × List Char × List Char × List Char × List Char → List Char
  | (sc, nl, pa, q, _f) => pyUrlunsplit (normScheme sc) (normNetloc nl) (normPath pa) q []

/-- Embedding of `normalize_url` (`new_testing.py:266`): strip whitespace,
prepend `http://` when the scheme regex does not match, split, lower-case
scheme and netloc, keep only the part of the netloc after the last `@`,
strip trailing slashes from the path, drop the fragment, reassemble.
`none` models the uncaught `ValueError` that `urlsplit` raises on a
bracket mismatch. -/
def normalizeUrlL (raw : List Char) : Option (List Char) :=
  if pyStrip raw = [] then some [] else
  match pyUrlsplit (if schemeRegexMatch (pyStrip raw) then pyStrip raw
                    else httpPre ++ pyStrip raw) with
  | none => none
  | some t => some (normAssemble t)

/-- `normalize_url` on `String`s. -/
def normalizeUrl (url : String) : Option String :=
  (normalizeUrlL url.data).map (fun l => ⟨l⟩)

/-- The hostname extracted from a netloc, as the `hostname` property of
`urllib`'s `SplitResult`: drop userinfo up to the last `@`; inside a
bracketed (IPv6) host take the part between the first `[` and the first
following `]`; otherwise take the part before the first `:`; lower-case. -/
def hostnameOf (netloc : List Char) : List Char :=
  pyLower (if '[' ∈ afterLastAt netloc then
      ((afterLastAt netloc).dropWhile (fun c => c ≠ '[')).tail.takeWhile (fun c => c ≠ ']')
    else (afterLastAt netloc).takeWhile (fun c => c ≠ ':'))

/-- Embedding of `get_domain` (`new_testing.py:295`): normalize, re-split,
return the lower-cased hostname; `""` on any failure (the function catches
all exceptions). -/
def getDomain (url : String) : String :=
  match normalizeUrlL url.data with
  | none => ""
  | some norm =>
    match pyUrlsplit norm with
    | none => ""
    | some (_, nl, _, _, _) => ⟨pyLower (hostnameOf nl)⟩

/-- The last dot-separated label of a host (`host.split('.')[-1]`). -/
def lastDotLabel (l : List Char) : List Char :=
  (l.reverse.takeWhile (fun c => c ≠ '.')).reverse

/-- Embedding of `is_valid_url` (`new_testing.py:305`): normalize (again),
require scheme in `{http, https, ftp}` and a non-empty hostname; accept IP
literals unconditionally; otherwise require a dot, a final label of length
at least 2 (unless the host starts `xn--`), and the character class
`[A-Za-z0-9.-]+`. Any exception yields `false`. -/
def isValidUrl (url : String) : Bool :=
  match normalizeUrlL url.data with
  | none => false
  | some norm =>
    if norm = [] then false else
    match pyUrlsplit norm with
    | none => false
    | some (sc, nl, _, _, _) =>
      let scheme := pyLower sc
      if ¬ (scheme = "http".data ∨ scheme = "https".data ∨ scheme = "ftp".data) then false else
      let host := hostnameOf nl
      if host = [] then false else
      if isIpAddr host then true else
      if ¬ ('.' ∈ host) then false else
      if (lastDotLabel host).length < 2 ∧ ¬ "xn--".data.isPrefixOf host then false else
      if ¬ host.all (fun c => c.isAlphanum ∨ c = '.' ∨ c = '-') then false
      else true

/-- The fixed keyword list of `heuristic_check`. -/
def suspiciousKeywords : List String :=
  ["scam", "phish", "login", "verify", "bank", "update"]

/-- Embedding of `heuristic_check` (`new_testing.py:425`): any suspicious
keyword in the lower-cased URL, or length over 75, or an `@`, or more than
one `//`. A pure total function. -/
def heuristicCheck (url : String) : Bool :=
  if suspiciousKeywords.any (fun w => hasSub w.data (pyLower url.data)) then true
  else if url.length > 75 then true
  else if hasSub ['@'] url.data then true
  else if countSS url.data > 1 then true
  else false

/-- The file system: file name to optional list of lines. `none` models a
file that is absent (or whose read raises). Writes model the text file as
its list of newline-terminated lines. -/
def FS : Type := String → Option (List String)

/-- The entries contributed by one line of a list file, per the loop body
of `load_urls_from_file`: skip blank lines; URL-looking lines (scheme
prefix or a `/`) contribute their normalization and its domain (the line
itself when normalization raises); other lines contribute the lower-cased
line. -/
def lineEntries (line : String) : List String :=
  if strStrip line = "" then [] else
  if schemeRegexMatch (strLower (strStrip line)).data ∨ '/' ∈ (strLower (strStrip line)).data then
    match normalizeUrlL (strLower (strStrip line)).data with
    | none => [strLower (strStrip line)]
    | some norm =>
      (⟨norm⟩ : String) ::
        (if getDomain ⟨norm⟩ ≠ "" then [getDomain ⟨norm⟩] else [])
  else [strLower (strStrip line)]

/-- Embedding of `load_urls_from_file` (`new_testing.py:376`): the set of
entries loaded from a list file (as a list; only membership is consumed).
An absent or unreadable file loads as the empty set. -/
def loadUrlsFromFile (fs : FS) (filename : String) : List String :=
  match fs filename with
  | none => []
  | some lines => (lines.map lineEntries).flatten

/-- The entry `save_to_dynamic_blacklist` records: the URL's domain, or
the lower-cased URL itself when domain extraction fails. -/
def saveEntry (url : String) : String :=
  if getDomain url = "" then strLower url else getDomain url

/-- Embedding of `save_to_dynamic_blacklist` (`new_testing.py:411`): append
the URL's domain (or the lower-cased URL when domain extraction fails) to
the dynamic blacklist file unless it is already in the loaded set. Returns
the updated file system (write failures are swallowed by the code; the
model lets writes succeed). -/
def saveToDynamicBlacklist (fs : FS) (dynFile : String) (url : String) : FS :=
  if strLower (saveEntry url) ∈ loadUrlsFromFile fs dynFile then fs
  else fun f => if f = dynFile
    then some (((fs dynFile).getD []) ++ [strLower (saveEntry url)]) else fs f

/-- Outcome of `socket.getaddrinfo(domain, None)`: success, a
`socket.gaierror` with a message, or another exception. -/
inductive GaiOutcome where
  | ok : GaiOutcome
  | gaiError (msg : String) : GaiOutcome
  | failure : GaiOutcome

/-- The "does not exist" markers of `domain_exists`. -/
def nxMarkers : List String :=
  ["name or service not known", "nodename nor servname provided",
   "no address associated", "eai_noname"]

/-- The "temporary failure" markers of `domain_exists`. -/
def tempMarkers : List String :=
  ["temporary failure", "try again", "eai_again", "timed out"]

/-- Embedding of `domain_exists` (`new_testing.py:338`): `some true` when
the domain is an IP literal or resolves, `some false` for an empty domain
or an NXDOMAIN-style error message, `none` (indeterminate) for temporary
failures and all other errors. The resolver is an oracle from domains to
outcomes. -/
def domainExists (gai : String → GaiOutcome) (url : String) : Option Bool :=
  let domain := getDomain url
  if domain = "" then some false else
  if isIpAddr domain.data then some true else
  match gai domain with
  | .ok => some true
  | .gaiError msg =>
    let e := strLower msg
    if nxMarkers.any (fun m => strHasSub e m) then some false
    else if tempMarkers.any (fun m => strHasSub e m) then none
    else none
  | .failure => none

/-- The TLD-to-WHOIS-server table of `is_domain_registered`. -/
def whoisServers : List (String × String) :=
  [("com", "whois.verisign-grs.com"), ("net", "whois.verisign-grs.com"),
   ("org", "whois.pir.org"), ("info", "whois.afilias.net"),
   ("io", "whois.nic.io"), ("co", "whois.nic.co"), ("in", "whois.registry.in"),
   ("me", "whois.nic.me"), ("biz", "whois.biz"), ("us", "whois.nic.us"),
   ("uk", "whois.nic.uk")]

/-- The ordered probe list of `is_domain_registered`: the TLD-specific
server (when the TLD is known), then the three fixed fallbacks. -/
def serversToTry (domain : String) : List String :=
  let tld := if '.' ∈ domain.data then strLower ⟨lastDotLabel domain.data⟩ else ""
  (match whoisServers.lookup tld with
   | some s => [s]
   | none => []) ++ ["whois.iana.org", "whois.crsnic.net", "whois.verisign-grs.com"]

/-- The "not found / available" markers of `is_domain_registered`. -/
def notFoundMarkers : List String :=
  ["no match for", "not found", "no data found", "no entries found",
   "status: available", "domain not found", "no such domain", "available"]

/-- The "registered" markers of `is_domain_registered`. -/
def registeredMarkers : List String :=
  ["domain name:", "registrar:", "creation date", "registered on",
   "registry expiry date", "expiry date", "updated date", "registration date"]

/-- Classification of one (lower-cased) WHOIS response text: the not-found
markers are checked before the registered markers; with no marker of
either kind the response is inconclusive. -/
def classifyWhoisText (text : String) : Option Bool :=
  if notFoundMarkers.any (fun m => strHasSub text m) then some false
  else if registeredMarkers.any (fun m => strHasSub text m) then some true
  else none

/-- The per-server probe loop of `is_domain_registered`: a connection or
receive failure (`none` from the oracle) and an inconclusive response both
move on to the next server; the first conclusive marker answers. -/
def probeServers (whois : String → Option String) : List String → Option Bool
  | [] => none
  | s :: rest =>
    match whois s with
    | none => probeServers whois rest
    | some resp =>
      match classifyWhoisText (strLower resp) with
      | some b => some b
      | none => probeServers whois rest

/-- Embedding of `is_domain_registered` (`new_testing.py:852`): empty
domain is indeterminate, IP literals count as registered, otherwise the
servers are probed in order. The network is an oracle from server names to
an optional full response text (`none` models a connection, timeout or
receive error). -/
def isDomainRegistered (whois : String → Option String) (domain : String) : Option Bool :=
  if domain = "" then none
  else if isIpAddr domain.data then some true
  else probeServers whois (serversToTry domain)

/-- The structured result of `perform_blocking_analysis`. -/
structure AnalysisResult where
  url : String
  verdict : String
  risk : Nat
  notes : String
  suggest : Option String
deriving DecidableEq, Repr

/-- Embedding of `perform_blocking_analysis` (`new_testing.py:693`): the
verdict pipeline. Returns the result together with the file system after
the call (the dynamic-blacklist side effect); `none` models the uncaught
exception when `normalize_url` raises (surfaced as a worker error, not a
verdict). `wFile`, `bFile`, `dFile` name the whitelist, blacklist and
dynamic-blacklist files. -/
def performBlockingAnalysis (fs : FS) (gai : String → GaiOutcome)
    (whois : String → Option String) (wFile bFile dFile : String)
    (rawUrl : String) : Option (AnalysisResult × FS) :=
  match normalizeUrl rawUrl with
  | none => none
  | some url =>
    if ¬ isValidUrl url then
      some ({ url := url, verdict := "invalid", risk := 80,
              notes := "Invalid URL format", suggest := none }, fs)
    else
    let whitelist := loadUrlsFromFile fs wFile
    let blacklist := loadUrlsFromFile fs bFile
    let dynamic := loadUrlsFromFile fs dFile
    let domain := getDomain url
    if (domain ≠ "" ∧ domain ∈ whitelist) ∨ strLower url ∈ whitelist then
      some ({ url := url, verdict := "safe", risk := 0,
              notes := "Whitelisted", suggest := none }, fs)
    else if (domain ≠ "" ∧ domain ∈ blacklist) ∨ strLower url ∈ blacklist then
      some ({ url := url, verdict := "blacklisted", risk := 100,
              notes := "Listed in blacklist", suggest := none }, fs)
    else if (domain ≠ "" ∧ domain ∈ dynamic) ∨ strLower url ∈ dynamic then
      some ({ url := url, verdict := "dynamic", risk := 95,
              notes := "Listed in dynamic blacklist", suggest := none }, fs)
    else if heuristicCheck url then
      some ({ url := url, verdict := "suspicious", risk := 90,
              notes := "Heuristic rules matched. Consider blocking.",
              suggest := some "blacklist" }, saveToDynamicBlacklist fs dFile url)
    else
      match domainExists gai url with
      | some false =>
        some ({ url := url, verdict := "nonexistent", risk := 85,
                notes := "Domain does not resolve.",
                suggest := some "blacklist" }, saveToDynamicBlacklist fs dFile url)
      | none =>
        some ({ url := url, verdict := "unknown", risk := 10,
                notes := "Could not verify domain (DNS/network issue).",
                suggest := none }, fs)
      | some true =>
        match isDomainRegistered whois domain with
        | some false =>
          some ({ url := url, verdict := "unregistered", risk := 90,
                  notes := "WHOIS indicates domain is not registered (available). Possibly malicious.",
                  suggest := some "blacklist" }, saveToDynamicBlacklist fs dFile url)
        | none =>
          some ({ url := url, verdict := "unknown_registration", risk := 15,
                  notes := "DNS resolves but WHOIS lookup was inconclusive. Proceed with caution.",
                  suggest := none }, fs)
        | some true =>
          some ({ url := url, verdict := "safe", risk := 5,
                  notes := "Passed checks; domain resolves and appears registered.",
                  suggest := some "whitelist" }, fs)

/-! ## Basic lemmas about the character model -/

theorem lowerChar_self_or_lower (c : Char) :
    lowerChar c = c ∨ ('a' ≤ lowerChar c ∧ lowerChar c ≤ 'z') := by
  unfold lowerChar
  split <;> first | (right; decide) | (left; rfl)

theorem lowerChar_eq_self_of_lower {d : Char} (h : 'a' ≤ d ∧ d ≤ 'z') :
    lowerChar d = d := by
  unfold lowerChar
  split <;> first | rfl | (exact absurd h (by decide))

theorem lowerChar_idem (c : Char) : lowerChar (lowerChar c) = lowerChar c := by
  rcases lowerChar_self_or_lower c with h | h
  · rw [h, h]
  · exact lowerChar_eq_self_of_lower h

theorem pyLower_idem (l : List Char) : pyLower (pyLower l) = pyLower l := by
  unfold pyLower
  rw [List.map_map]
  exact List.map_congr_left (fun c _ => lowerChar_idem c)

theorem strLower_idem (s : String) : strLower (strLower s) = strLower s := by
  unfold strLower
  exact congrArg String.mk (pyLower_idem s.data)

theorem lowerChar_eq_of_not_lower {c d : Char}
    (hd : ¬ ('a' ≤ d ∧ d ≤ 'z')) (h : lowerChar c = d) : c = d := by
  rcases lowerChar_self_or_lower c with h' | h'
  · rw [← h', h]
  · rw [h] at h'
    exact absurd h' hd

/-! ## Basic lemmas about the pipeline functions -/

theorem pyLower_ne_nil {l : List Char} (h : l ≠ []) : pyLower l ≠ [] := by
  unfold pyLower
  simpa using h

/-- A URL accepted by `is_valid_url` has a non-empty extracted domain
(both functions compute the host from the same normalization). -/
theorem getDomain_ne_empty_of_valid (u : String) (h : isValidUrl u = true) :
    getDomain u ≠ "" := by
  unfold isValidUrl at h
  unfold getDomain
  cases hn : normalizeUrlL u.data with
  | none => rw [hn] at h; exact Bool.noConfusion h
  | some norm =>
    simp only [hn] at h ⊢
    by_cases he : norm = []
    · rw [if_pos he] at h
      exact absurd h (by simp)
    · rw [if_neg he] at h
      cases hp : pyUrlsplit norm with
      | none => rw [hp] at h; exact Bool.noConfusion h
      | some t =>
        obtain ⟨sc, nl, pa, q, f⟩ := t
        simp only [hp] at h ⊢
        intro hcon
        have hdata : pyLower (hostnameOf nl) = [] := congrArg String.data hcon
        have hhost : hostnameOf nl = [] := by
          have := congrArg List.length hdata
          simp [pyLower] at this
          exact this
        simp [hhost] at h

/-- The extracted domain is already lower-case. -/
theorem strLower_getDomain (u : String) : strLower (getDomain u) = getDomain u := by
  unfold getDomain
  cases hn : normalizeUrlL u.data with
  | none => simp only [hn]; rfl
  | some norm =>
    simp only [hn]
    cases hp : pyUrlsplit norm with
    | none => simp only [hp]; rfl
    | some t =>
      obtain ⟨sc, nl, pa, q, f⟩ := t
      simp only [hp, strLower]
      exact congrArg String.mk (pyLower_idem (hostnameOf nl))

/-! ## Claim C1: whitelist precedence -/

/-- Claim C1: for every raw URL that passes validation and whose extracted
domain is present in both the whitelist file's loaded set and the blacklist
file's loaded set, `perform_blocking_analysis` returns verdict `safe` with
risk 0 and leaves the file system unchanged — the whitelist check is made
before the blacklist check. -/
theorem whitelistPrecedence (fs : FS) (gai : String → GaiOutcome)
    (whois : String → Option String) (wf bf df raw u : String)
    (hn : normalizeUrl raw = some u) (hv : isValidUrl u = true)
    (hw : getDomain u ∈ loadUrlsFromFile fs wf)
    (_hb : getDomain u ∈ loadUrlsFromFile fs bf) :
    performBlockingAnalysis fs gai whois wf bf df raw =
      some ({ url := u, verdict := "safe", risk := 0,
              notes := "Whitelisted", suggest := none }, fs) := by
  have hd : getDomain u ≠ "" := getDomain_ne_empty_of_valid u hv
  unfold performBlockingAnalysis
  simp only [hn]
  rw [if_neg (fun hc => hc hv)]
  rw [if_pos (Or.inl ⟨hd, hw⟩)]

/-- Witness for C1 at a concrete input: `example.com` seeded in both the
whitelist and the blacklist files, analyzed URL `http://example.com`. -/
theorem whitelistPrecedenceWitness :
    performBlockingAnalysis
      (fun f => if f = "wl" then some ["example.com"]
                else if f = "bl" then some ["example.com"] else none)
      (fun _ => .ok) (fun _ => none) "wl" "bl" "dyn" "http://example.com" =
      some ({ url := "http://example.com", verdict := "safe", risk := 0,
              notes := "Whitelisted", suggest := none },
            (fun f => if f = "wl" then some ["example.com"]
                      else if f = "bl" then some ["example.com"] else none)) :=
  whitelistPrecedence _ _ _ _ _ _ _ _ (by decide) (by decide) (by decide) (by decide)

/-! ## Claim C2: dynamic-blacklist check short-circuits the heuristic -/

/-- Claim C2: for a validated URL that matches neither the whitelist nor
the static blacklist, whose domain (or lower-cased normalized URL) is in
the dynamic blacklist's loaded set and for which `heuristic_check` would
also return true, the pipeline returns verdict `dynamic` with risk 95
(stage 4), not verdict `suspicious` (stage 5), and writes nothing. -/
theorem dynamicBeforeHeuristic (fs : FS) (gai : String → GaiOutcome)
    (whois : String → Option String) (wf bf df raw u : String)
    (hn : normalizeUrl raw = some u) (hv : isValidUrl u = true)
    (hnw : ¬ ((getDomain u ≠ "" ∧ getDomain u ∈ loadUrlsFromFile fs wf) ∨
              strLower u ∈ loadUrlsFromFile fs wf))
    (hnb : ¬ ((getDomain u ≠ "" ∧ getDomain u ∈ loadUrlsFromFile fs bf) ∨
              strLower u ∈ loadUrlsFromFile fs bf))
    (hdyn : getDomain u ∈ loadUrlsFromFile fs df ∨ strLower u ∈ loadUrlsFromFile fs df)
    (_hheu : heuristicCheck u = true) :
    performBlockingAnalysis fs gai whois wf bf df raw =
      some ({ url := u, verdict := "dynamic", risk := 95,
              notes := "Listed in dynamic blacklist", suggest := none }, fs) := by
  have hd : getDomain u ≠ "" := getDomain_ne_empty_of_valid u hv
  unfold performBlockingAnalysis
  simp only [hn]
  rw [if_neg (fun hc => hc hv)]
  rw [if_neg hnw, if_neg hnb]
  rw [if_pos (hdyn.elim (fun h => Or.inl ⟨hd, h⟩) Or.inr)]

/-- Witness for C2 at a concrete input: `login.example.com` seeded in the
dynamic blacklist, analyzed URL `http://login.example.com` (which also
satisfies the heuristic via the keyword `login`). -/
theorem dynamicBeforeHeuristicWitness :
    performBlockingAnalysis
      (fun f => if f = "dyn" then some ["login.example.com"] else none)
      (fun _ => .ok) (fun _ => none) "wl" "bl" "dyn" "http://login.example.com" =
      some ({ url := "http://login.example.com", verdict := "dynamic", risk := 95,
              notes := "Listed in dynamic blacklist", suggest := none },
            (fun f => if f = "dyn" then some ["login.example.com"] else none)) :=
  dynamicBeforeHeuristic _ _ _ _ _ _ _ _ (by decide) (by decide) (by decide)
    (by decide) (by decide) (by decide)

/-! ## Claim C6: indeterminate DNS resolution leaves the store unchanged -/

/-- Claim C6: for a validated URL that matches no list, fails the
heuristic, and whose DNS resolution is indeterminate (such as a temporary
failure), the pipeline returns verdict `unknown` with risk 10 and no
suggested addition, and the file system — in particular the dynamic
blacklist file — is returned unchanged. -/
theorem indeterminateDnsNoWrite (fs : FS) (gai : String → GaiOutcome)
    (whois : String → Option String) (wf bf df raw u : String)
    (hn : normalizeUrl raw = some u) (hv : isValidUrl u = true)
    (hnw : ¬ ((getDomain u ≠ "" ∧ getDomain u ∈ loadUrlsFromFile fs wf) ∨
              strLower u ∈ loadUrlsFromFile fs wf))
    (hnb : ¬ ((getDomain u ≠ "" ∧ getDomain u ∈ loadUrlsFromFile fs bf) ∨
              strLower u ∈ loadUrlsFromFile fs bf))
    (hnd : ¬ ((getDomain u ≠ "" ∧ getDomain u ∈ loadUrlsFromFile fs df) ∨
              strLower u ∈ loadUrlsFromFile fs df))
    (hheu : heuristicCheck u = false)
    (hdns : domainExists gai u = none) :
    performBlockingAnalysis fs gai whois wf bf df raw =
      some ({ url := u, verdict := "unknown", risk := 10,
              notes := "Could not verify domain (DNS/network issue).",
              suggest := none }, fs) := by
  unfold performBlockingAnalysis
  simp only [hn]
  rw [if_neg (fun hc => hc hv)]
  rw [if_neg hnw, if_neg hnb, if_neg hnd]
  rw [if_neg (by simp [hheu])]
  simp only [hdns]

/-- Witness for C6 at a concrete input: empty stores, resolver reporting a
temporary failure. -/
theorem indeterminateDnsNoWriteWitness :
    performBlockingAnalysis (fun _ => none)
      (fun _ => .gaiError "[Errno -3] Temporary failure in name resolution")
      (fun _ => none) "wl" "bl" "dyn" "http://example.com" =
      some ({ url := "http://example.com", verdict := "unknown", risk := 10,
              notes := "Could not verify domain (DNS/network issue).",
              suggest := none }, (fun _ => none)) :=
  indeterminateDnsNoWrite _ _ _ _ _ _ _ _ (by decide) (by decide) (by decide)
    (by decide) (by decide) (by decide) (by decide)

/-! ## Substring containment, characterized -/

theorem hasSub_iff (pat hay : List Char) :
    hasSub pat hay = true ↔ ∃ a b, hay = a ++ pat ++ b := by
  induction hay with
  | nil =>
    simp only [hasSub, List.isPrefixOf_iff_prefix]
    constructor
    · intro h
      exact ⟨[], [], by simp [List.prefix_nil.mp h]⟩
    · rintro ⟨a, b, h⟩
      have : pat = [] := by
        rcases List.append_eq_nil.mp h.symm with ⟨h1, h2⟩
        rcases List.append_eq_nil.mp h1 with ⟨_, h3⟩
        exact h3
      simp [this]
  | cons c t ih =>
    simp only [hasSub, Bool.or_eq_true, ih, List.isPrefixOf_iff_prefix]
    constructor
    · rintro (⟨b, hb⟩ | ⟨a, b, rfl⟩)
      · exact ⟨[], b, by simp [hb]⟩
      · exact ⟨c :: a, b, rfl⟩
    · rintro ⟨a, b, h⟩
      cases a with
      | nil =>
        left
        exact ⟨b, by simpa using h.symm⟩
      | cons a' as =>
        right
        rw [List.cons_append, List.cons_append] at h
        injection h with h1 h2
        exact ⟨as, b, by simpa using h2⟩

/-! ## Claim C7: WHOIS response classification -/

/-- Claim C7: (i) a response text containing any not-found marker is
classified `False` — even when registered markers are also present, since
the not-found check comes first; (ii) a text free of not-found markers but
containing a registered marker is classified `True`; (iii) a text with
neither kind of marker is inconclusive; and (iv) when every probed server
errors out or returns an inconclusive text, `is_domain_registered` returns
`None` (indeterminate) for any non-empty, non-IP domain after exhausting
the candidate servers. -/
theorem whoisClassification :
    (∀ t : String, (∃ m ∈ notFoundMarkers, ∃ a b, t.data = a ++ m.data ++ b) →
        classifyWhoisText t = some false)
  ∧ (∀ t : String, (∀ m ∈ notFoundMarkers, ¬ ∃ a b, t.data = a ++ m.data ++ b) →
        (∃ m ∈ registeredMarkers, ∃ a b, t.data = a ++ m.data ++ b) →
        classifyWhoisText t = some true)
  ∧ (∀ t : String, (∀ m ∈ notFoundMarkers, ¬ ∃ a b, t.data = a ++ m.data ++ b) →
        (∀ m ∈ registeredMarkers, ¬ ∃ a b, t.data = a ++ m.data ++ b) →
        classifyWhoisText t = none)
  ∧ (∀ (whois : String → Option String) (d : String), d ≠ "" →
        isIpAddr d.data = false →
        (∀ s r, whois s = some r → classifyWhoisText (strLower r) = none) →
        isDomainRegistered whois d = none) := by
  have probeNone : ∀ (whois : String → Option String),
      (∀ s r, whois s = some r → classifyWhoisText (strLower r) = none) →
      ∀ l, probeServers whois l = none := by
    intro whois hall l
    induction l with
    | nil => rfl
    | cons s rest ih =>
      unfold probeServers
      cases hw : whois s with
      | none => exact ih
      | some r => simp [hall s r hw, ih]
  refine ⟨?_, ?_, ?_, ?_⟩
  · rintro t ⟨m, hm, a, b, heq⟩
    unfold classifyWhoisText
    rw [if_pos]
    rw [List.any_eq_true]
    exact ⟨m, hm, (hasSub_iff m.data t.data).mpr ⟨a, b, heq⟩⟩
  · rintro t hno ⟨m, hm, a, b, heq⟩
    unfold classifyWhoisText
    rw [if_neg, if_pos]
    · rw [List.any_eq_true]
      exact ⟨m, hm, (hasSub_iff m.data t.data).mpr ⟨a, b, heq⟩⟩
    · rw [List.any_eq_true]
      rintro ⟨m', hm', hsub⟩
      exact hno m' hm' ((hasSub_iff m'.data t.data).mp hsub)
  · intro t hno hnr
    unfold classifyWhoisText
    rw [if_neg, if_neg]
    · rw [List.any_eq_true]
      rintro ⟨m', hm', hsub⟩
      exact hnr m' hm' ((hasSub_iff m'.data t.data).mp hsub)
    · rw [List.any_eq_true]
      rintro ⟨m', hm', hsub⟩
      exact hno m' hm' ((hasSub_iff m'.data t.data).mp hsub)
  · intro whois d hne hip hall
    unfold isDomainRegistered
    rw [if_neg hne, if_neg (by simp [hip])]
    exact probeNone whois hall _

/-- Witness for C7 at concrete responses: a text carrying both kinds of
marker classifies as not-found; a registered-marker text classifies as
registered; a markerless text is inconclusive; a server set that only ever
answers with markerless text drives `is_domain_registered` to `None`. -/
theorem whoisClassificationWitness :
    classifyWhoisText "domain not found; registrar: x" = some false
  ∧ classifyWhoisText "registrar: someone" = some true
  ∧ classifyWhoisText "zz top" = none
  ∧ isDomainRegistered (fun _ => some "zz top") "example.test" = none := by
  obtain ⟨h1, h2, h3, h4⟩ := whoisClassification
  have hno : ∀ (t : String), (∀ m ∈ notFoundMarkers, hasSub m.data t.data = false) →
      ∀ m ∈ notFoundMarkers, ¬ ∃ a b, t.data = a ++ m.data ++ b := by
    intro t hdec m hm ⟨a, b, heq⟩
    have := (hasSub_iff m.data t.data).mpr ⟨a, b, heq⟩
    rw [hdec m hm] at this
    exact Bool.noConfusion this
  have hnr : ∀ (t : String), (∀ m ∈ registeredMarkers, hasSub m.data t.data = false) →
      ∀ m ∈ registeredMarkers, ¬ ∃ a b, t.data = a ++ m.data ++ b := by
    intro t hdec m hm ⟨a, b, heq⟩
    have := (hasSub_iff m.data t.data).mpr ⟨a, b, heq⟩
    rw [hdec m hm] at this
    exact Bool.noConfusion this
  refine ⟨?_, ?_, ?_, ?_⟩
  · exact h1 _ ⟨"domain not found", by decide,
      [], "; registrar: x".data, by decide⟩
  · exact h2 _ (hno _ (by decide)) ⟨"registrar:", by decide, [], " someone".data, by decide⟩
  · exact h3 _ (hno _ (by decide)) (hnr _ (by decide))
  · refine h4 _ _ (by decide) (by decide) ?_
    intro s r hr
    cases Option.some.injEq .. ▸ hr with
    | refl => exact h3 _ (hno _ (by decide)) (hnr _ (by decide))

/-! ## Claim C8: list loading never fails, blank lines are skipped -/

theorem lineEntries_blank {l : String} (h : strStrip l = "") : lineEntries l = [] := by
  unfold lineEntries
  rw [if_pos h]

theorem flatten_filter_blank (lines : List String) :
    (lines.map lineEntries).flatten =
      ((lines.filter (fun l => strStrip l ≠ "")).map lineEntries).flatten := by
  induction lines with
  | nil => rfl
  | cons l ls ih =>
    by_cases hb : strStrip l = ""
    · simpa [List.filter_cons, hb, lineEntries_blank hb] using ih
    · simpa [List.filter_cons, hb] using ih

/-- Claim C8: `load_urls_from_file` is a total function of the file-system
state (the embedding returns a value for every file name — the Python
function catches every exception): an absent or unreadable file (modelled
`fs fn = none`) loads as the empty set, and blank lines contribute nothing
— the load of any file equals the load of the same file with its blank
lines removed. -/
theorem loadNeverFails (fs : FS) (fn : String) :
    (fs fn = none → loadUrlsFromFile fs fn = [])
  ∧ loadUrlsFromFile fs fn =
      loadUrlsFromFile (fun f => (fs f).map (List.filter (fun l => strStrip l ≠ ""))) fn := by
  constructor
  · intro h
    unfold loadUrlsFromFile
    rw [h]
  · unfold loadUrlsFromFile
    cases h : fs fn with
    | none => simp [h]
    | some lines =>
      simp only [h, Option.map]
      exact flatten_filter_blank lines

/-- Witness for C8: an absent file loads empty, and a file with blank
lines loads the same as its blank-free version. -/
theorem loadNeverFailsWitness :
    loadUrlsFromFile (fun _ => none) "whitelist_urls.txt" = []
  ∧ loadUrlsFromFile (fun _ => some ["a.com", "", "  ", "b.com"]) "f" =
      loadUrlsFromFile
        (fun f => ((fun _ => some ["a.com", "", "  ", "b.com"] : FS) f).map
          (List.filter (fun l => strStrip l ≠ ""))) "f" :=
  ⟨(loadNeverFails (fun _ => none) "whitelist_urls.txt").1 rfl,
   (loadNeverFails (fun _ => some ["a.com", "", "  ", "b.com"]) "f").2⟩

/-! ## Counting `//` occurrences, characterized -/

theorem countSS_cons_cons (c d : Char) (rest : List Char) :
    countSS (c :: d :: rest) =
      if c = '/' ∧ d = '/' then countSS rest + 1 else countSS (d :: rest) := by
  rcases Decidable.em (c = '/' ∧ d = '/') with h | h
  · obtain ⟨rfl, rfl⟩ := h
    simp [countSS]
  · rw [if_neg h]
    rw [countSS.eq_def]
    split
    · next heq => injection heq with h1 h2; injection h2 with h2 h3; exact absurd ⟨h1, h2⟩ h
    · next x rest' heq => injection heq with h1 h2; rw [h2]
    · next heq => exact absurd heq (by simp)

theorem countSS_singleton (c : Char) : countSS [c] = 0 := by
  rw [countSS.eq_def]
  split
  · next heq => exact absurd heq (by simp)
  · next heq =>
      injection heq with h1 h2
      rw [← h2]
      rfl
  · next heq => exact absurd heq (by simp)

theorem countSS_append_one : ∀ (d e : List Char), 1 ≤ countSS (d ++ '/' :: '/' :: e)
  | [], e => by simp [countSS]
  | [x], e => by
    rw [List.cons_append, List.nil_append, countSS_cons_cons]
    split
    · omega
    · simp [countSS]
  | x :: y :: d, e => by
    rw [List.cons_append, List.cons_append, countSS_cons_cons]
    split
    · omega
    · rw [← List.cons_append]
      exact countSS_append_one (y :: d) e

theorem countSS_two_shape : ∀ (a b c : List Char),
    2 ≤ countSS (a ++ '/' :: '/' :: (b ++ '/' :: '/' :: c))
  | [], b, c => by
    simp only [List.nil_append, countSS]
    have := countSS_append_one b c
    omega
  | [x], b, c => by
    rw [List.cons_append, List.nil_append, countSS_cons_cons]
    split
    · have := countSS_append_one ('/' :: b) c
      rw [List.cons_append] at this
      omega
    · simp only [countSS]
      have := countSS_append_one b c
      omega
  | x :: y :: a, b, c => by
    rw [List.cons_append, List.cons_append, countSS_cons_cons]
    split
    · have := countSS_append_one (a ++ '/' :: '/' :: b) c
      rw [List.append_assoc, List.cons_append, List.cons_append] at this
      omega
    · rw [← List.cons_append]
      exact countSS_two_shape (y :: a) b c

theorem countSS_one_exists : ∀ (l : List Char), 1 ≤ countSS l →
    ∃ a b, l = a ++ '/' :: '/' :: b
  | [], h => by simp [countSS] at h
  | [x], h => by
    rw [countSS_singleton] at h
    omega
  | x :: y :: rest, h => by
    rw [countSS_cons_cons] at h
    split at h
    · next hc => exact ⟨[], rest, by simp [hc.1, hc.2]⟩
    · obtain ⟨a, b, hab⟩ := countSS_one_exists (y :: rest) h
      exact ⟨x :: a, b, by rw [List.cons_append, ← hab]⟩

theorem countSS_two_exists : ∀ (l : List Char), 2 ≤ countSS l →
    ∃ a b c, l = a ++ '/' :: '/' :: (b ++ '/' :: '/' :: c)
  | [], h => by simp [countSS] at h
  | [x], h => by
    rw [countSS_singleton] at h
    omega
  | x :: y :: rest, h => by
    rw [countSS_cons_cons] at h
    split at h
    · next hc =>
      obtain ⟨a, b, hab⟩ := countSS_one_exists rest (by omega)
      exact ⟨[], a, b, by simp [hc.1, hc.2, hab]⟩
    · obtain ⟨a, b, c, habc⟩ := countSS_two_exists (y :: rest) h
      exact ⟨x :: a, b, c, by rw [List.cons_append, ← habc]⟩

/-! ## Claim C4: the heuristic, characterized -/

/-- Claim C4: `heuristic_check(url)` is true exactly when the lower-cased
URL contains one of the keywords `scam`, `phish`, `login`, `verify`,
`bank`, `update`, or the URL is longer than 75 characters, or contains an
`@`, or contains the substring `//` more than once (non-overlapping
count). The function is a pure total function of its argument — the
embedding is a Lean function, performing no I/O and returning a Boolean
for every string. -/
theorem heuristicCheckIff (url : String) :
    heuristicCheck url = true ↔
      ((∃ w ∈ suspiciousKeywords, ∃ a b, (strLower url).data = a ++ w.data ++ b)
       ∨ url.length > 75
       ∨ '@' ∈ url.data
       ∨ (∃ a b c, url.data = a ++ '/' :: '/' :: (b ++ '/' :: '/' :: c))) := by
  have hc : heuristicCheck url = true ↔
      (suspiciousKeywords.any (fun w => hasSub w.data (pyLower url.data)) = true
       ∨ url.length > 75
       ∨ hasSub ['@'] url.data = true
       ∨ countSS url.data > 1) := by
    unfold heuristicCheck
    split
    · next h => simp [h]
    · next h =>
      split
      · next h2 => simp [h, h2]
      · next h2 =>
        split
        · next h3 => simp [h, h2, h3]
        · next h3 =>
          split
          · next h4 => simp [h, h2, h3, h4]
          · next h4 => simp [h, h2, h3, h4]
  rw [hc]
  constructor
  · rintro (h | h | h | h)
    · left
      rw [List.any_eq_true] at h
      obtain ⟨w, hw, hsub⟩ := h
      exact ⟨w, hw, (hasSub_iff w.data (pyLower url.data)).mp hsub⟩
    · exact Or.inr (Or.inl h)
    · refine Or.inr (Or.inr (Or.inl ?_))
      obtain ⟨a, b, heq⟩ := (hasSub_iff ['@'] url.data).mp h
      rw [heq]
      simp
    · exact Or.inr (Or.inr (Or.inr (countSS_two_exists url.data (by omega))))
  · rintro (⟨w, hw, a, b, heq⟩ | h | h | ⟨a, b, c, heq⟩)
    · left
      rw [List.any_eq_true]
      exact ⟨w, hw, (hasSub_iff w.data (pyLower url.data)).mpr ⟨a, b, heq⟩⟩
    · exact Or.inr (Or.inl h)
    · refine Or.inr (Or.inr (Or.inl ?_))
      obtain ⟨s, t, heq⟩ := List.append_of_mem h
      exact (hasSub_iff ['@'] url.data).mpr ⟨s, t, by simpa using heq⟩
    · refine Or.inr (Or.inr (Or.inr ?_))
      have := countSS_two_shape a b c
      rw [← heq] at this
      omega

/-! ## Claim C3: normalization idempotence (counterexample) -/

/-- Counterexample to claim C3 as stated: normalization is not idempotent
on every string. For `x = "http://a?b #f"` the fragment split exposes a
trailing space in the query, so `normalize_url x = "http://a?b "`, but
normalizing that once more strips the space: `"http://a?b"`. -/
theorem normalizeNotIdempotent :
    normalizeUrl "http://a?b #f" = some "http://a?b " ∧
    normalizeUrl "http://a?b " = some "http://a?b" ∧
    ¬ ((normalizeUrl "http://a?b #f").bind normalizeUrl =
        normalizeUrl "http://a?b #f") := by
  refine ⟨by decide, by decide, ?_⟩
  intro h
  rw [show (normalizeUrl "http://a?b #f").bind normalizeUrl = some "http://a?b" from by decide,
      show normalizeUrl "http://a?b #f" = some "http://a?b " from by decide] at h
  have := Option.some.inj h
  exact absurd (congrArg String.data this) (by decide)

/-! ## Claim C5: heuristic stage side effect (counterexample) -/

/-- Counterexample to claim C5 as stated: for the validated URL
`http://[::1%login ]` (an IPv6 literal whose zone-id ends in a space —
accepted by `ipaddress` since Python 3.9) with all stores empty, the
pipeline returns verdict `suspicious` and writes the extracted domain
`"::1%login "` to the dynamic blacklist, but re-loading strips each line,
so the stored entry is `"::1%login"` and the URL's domain is NOT a member
of the set loaded from the dynamic blacklist file afterwards. -/
theorem heuristicSideEffectCounterexample :
    (∃ r fs', performBlockingAnalysis (fun _ => none) (fun _ => .ok) (fun _ => none)
        "wl" "bl" "dyn" "http://[::1%login ]" = some (r, fs') ∧
      r.verdict = "suspicious" ∧ r.risk = 90 ∧ r.suggest = some "blacklist" ∧
      heuristicCheck r.url = true ∧
      fs' "dyn" = some ["::1%login "] ∧
      getDomain r.url = "::1%login " ∧
      getDomain r.url ∉ loadUrlsFromFile fs' "dyn") := by
  refine ⟨{ url := "http://[::1%login ]", verdict := "suspicious", risk := 90,
            notes := "Heuristic rules matched. Consider blocking.",
            suggest := some "blacklist" },
          saveToDynamicBlacklist (fun _ => none) "dyn" "http://[::1%login ]",
          rfl, rfl, rfl, rfl, by decide, by decide, by decide, by decide⟩

/-! ## Claim C5 (amended): heuristic stage outcome and side effect -/

theorem mem_afterLastAt {c : Char} {l : List Char} (h : c ∈ afterLastAt l) : c ∈ l := by
  unfold afterLastAt at h
  rw [List.mem_reverse] at h
  have := (List.takeWhile_sublist _).mem h
  rwa [List.mem_reverse] at this

theorem mem_hostnameOf {c : Char} {nl : List Char} (h : c ∈ hostnameOf nl) :
    ∃ c0 ∈ nl, lowerChar c0 = c := by
  unfold hostnameOf at h
  rw [pyLower, List.mem_map] at h
  obtain ⟨c1, hc1, hlow⟩ := h
  refine ⟨c1, ?_, hlow⟩
  split at hc1
  · have h2 := (List.takeWhile_sublist _).mem hc1
    have h3 := (List.tail_sublist _).mem h2
    have h4 := (List.dropWhile_sublist _).mem h3
    exact mem_afterLastAt h4
  · exact mem_afterLastAt ((List.takeWhile_sublist _).mem hc1)

theorem pyUrlsplit_netloc_no_delim {url sc nl pa q f : List Char}
    (h : pyUrlsplit url = some (sc, nl, pa, q, f)) :
    ∀ c ∈ nl, notDelim c = true := by
  unfold pyUrlsplit at h
  split at h
  · unfold pyUrlsplitNetloc at h
    split at h
    · exact absurd h (by simp)
    · split at h
      · exact absurd h (by simp)
      · simp only [Option.some.injEq, Prod.mk.injEq] at h
        obtain ⟨-, h2, -⟩ := h
        intro c hc
        rw [← h2] at hc
        exact List.mem_takeWhile_imp hc
  · simp only [Option.some.injEq, Prod.mk.injEq] at h
    obtain ⟨-, h2, -⟩ := h
    intro c hc
    rw [← h2] at hc
    exact absurd hc (by simp)

theorem getDomain_no_slash (u : String) : '/' ∉ (getDomain u).data := by
  unfold getDomain
  cases hn : normalizeUrlL u.data with
  | none => simp
  | some norm =>
    simp only [hn]
    cases hp : pyUrlsplit norm with
    | none => simp
    | some t =>
      obtain ⟨sc, nl, pa, q, f⟩ := t
      simp only [hp]
      intro hmem
      simp only [pyLower, List.mem_map] at hmem
      obtain ⟨c0, hc0, hlow0⟩ := hmem
      have hc0' : c0 = '/' := lowerChar_eq_of_not_lower (by decide) hlow0
      subst hc0'
      obtain ⟨c1, hc1, hlow1⟩ := mem_hostnameOf hc0
      have hc1' : c1 = '/' := lowerChar_eq_of_not_lower (by decide) hlow1
      subst hc1'
      have := pyUrlsplit_netloc_no_delim hp '/' hc1
      simp [notDelim] at this

theorem schemeRegexMatch_has_slash {l : List Char} (h : schemeRegexMatch l = true) :
    '/' ∈ l := by
  unfold schemeRegexMatch at h
  cases l with
  | nil => exact Bool.noConfusion h
  | cons c t =>
    simp only [Bool.and_eq_true, decide_eq_true_eq] at h
    have h3 := h.2
    have : '/' ∈ ((c :: t).dropWhile isSchemeChar).take 3 := by
      rw [h3]; simp
    exact (List.dropWhile_sublist _).mem ((List.take_sublist _ _).mem this)

/-- A clean bare token (non-blank, whitespace-stripped, lower-case fixed,
no slash and no scheme prefix) re-loads as itself: its line contributes
exactly the singleton `[e]`. -/
theorem lineEntries_clean (e : String) (hne : e ≠ "")
    (hstrip : strStrip e = e) (hlow : strLower e = e)
    (hslash : '/' ∉ e.data) : lineEntries e = [e] := by
  unfold lineEntries
  rw [hstrip, if_neg hne, hlow]
  rw [if_neg]
  rintro (hscheme | hmem)
  · exact hslash (schemeRegexMatch_has_slash hscheme)
  · exact hslash hmem

/-- Claim C5, amended: for a validated URL matching no list entry, with
`heuristic_check` true of the normalized URL, and whose extracted domain
carries no leading or trailing whitespace (the pathological exception are
IPv6 zone-ids ending in whitespace, see the counterexample), the pipeline
returns verdict `suspicious`, risk 90, `suggest_add = blacklist`, and
afterwards the URL's domain is a member of the set loaded from the dynamic
blacklist file. -/
theorem heuristicSideEffect (fs : FS) (gai : String → GaiOutcome)
    (whois : String → Option String) (wf bf df raw u : String)
    (hn : normalizeUrl raw = some u) (hv : isValidUrl u = true)
    (hnw : ¬ ((getDomain u ≠ "" ∧ getDomain u ∈ loadUrlsFromFile fs wf) ∨
              strLower u ∈ loadUrlsFromFile fs wf))
    (hnb : ¬ ((getDomain u ≠ "" ∧ getDomain u ∈ loadUrlsFromFile fs bf) ∨
              strLower u ∈ loadUrlsFromFile fs bf))
    (hnd : ¬ ((getDomain u ≠ "" ∧ getDomain u ∈ loadUrlsFromFile fs df) ∨
              strLower u ∈ loadUrlsFromFile fs df))
    (hheu : heuristicCheck u = true)
    (hclean : strStrip (getDomain u) = getDomain u) :
    ∃ fs', performBlockingAnalysis fs gai whois wf bf df raw =
        some ({ url := u, verdict := "suspicious", risk := 90,
                notes := "Heuristic rules matched. Consider blocking.",
                suggest := some "blacklist" }, fs')
      ∧ getDomain u ∈ loadUrlsFromFile fs' df := by
  have hd : getDomain u ≠ "" := getDomain_ne_empty_of_valid u hv
  have hlow : strLower (getDomain u) = getDomain u := strLower_getDomain u
  refine ⟨saveToDynamicBlacklist fs df u, ?_, ?_⟩
  · unfold performBlockingAnalysis
    simp only [hn]
    rw [if_neg (fun hc => hc hv)]
    rw [if_neg hnw, if_neg hnb, if_neg hnd]
    rw [if_pos hheu]
  · have hnotin : getDomain u ∉ loadUrlsFromFile fs df := by
      intro hmem
      exact hnd (Or.inl ⟨hd, hmem⟩)
    have hse : saveEntry u = getDomain u := by
      unfold saveEntry
      rw [if_neg hd]
    unfold saveToDynamicBlacklist
    rw [hse, hlow, if_neg hnotin]
    unfold loadUrlsFromFile
    simp only [if_pos rfl, if_true]
    rw [List.mem_flatten]
    refine ⟨lineEntries (getDomain u), ?_, ?_⟩
    · rw [List.mem_map]
      exact ⟨getDomain u, by simp, rfl⟩
    · rw [lineEntries_clean (getDomain u) hd hclean hlow (getDomain_no_slash u)]
      simp

/-- Witness for the amended C5 at a concrete input: empty stores, URL
`http://secure-login.example.com` (heuristic true via `login`). -/
theorem heuristicSideEffectWitness :
    ∃ fs', performBlockingAnalysis (fun _ => none) (fun _ => .ok) (fun _ => none)
        "wl" "bl" "dyn" "http://secure-login.example.com" =
        some ({ url := "http://secure-login.example.com", verdict := "suspicious",
                risk := 90, notes := "Heuristic rules matched. Consider blocking.",
                suggest := some "blacklist" }, fs')
      ∧ getDomain "http://secure-login.example.com" ∈ loadUrlsFromFile fs' "dyn" :=
  heuristicSideEffect _ _ _ _ _ _ _ _ (by decide) (by decide) (by decide)
    (by decide) (by decide) (by decide) (by decide)

/-! ## Claim C9: append-if-absent under sequential use -/

/-- Counterexample to claim C9 as stated: for `url = "http://ab ?q"` the
recorded entry is the extracted domain `"ab "` (the netloc retains its
trailing space). Loading strips each line, so the stored line `"ab "`
re-loads as `"ab"`, the second call does not find the entry present, and
writes it again: after two sequential calls on an initially empty store
the file holds the entry twice, not exactly once. -/
theorem appendNotIdempotent :
    saveEntry "http://ab ?q" = "ab "
  ∧ saveToDynamicBlacklist (fun _ => none) "dyn" "http://ab ?q" "dyn" = some ["ab "]
  ∧ saveToDynamicBlacklist (saveToDynamicBlacklist (fun _ => none) "dyn" "http://ab ?q")
      "dyn" "http://ab ?q" "dyn" = some ["ab ", "ab "]
  ∧ List.count ("ab " : String) ["ab ", "ab "] ≠ 1 := by
  refine ⟨by decide, by decide, by decide, by decide⟩

theorem save_of_mem {fs : FS} {df url : String}
    (h : strLower (saveEntry url) ∈ loadUrlsFromFile fs df) :
    saveToDynamicBlacklist fs df url = fs := by
  unfold saveToDynamicBlacklist
  rw [if_pos h]

theorem strLower_saveEntry (url : String) : strLower (saveEntry url) = saveEntry url := by
  unfold saveEntry
  split
  · exact strLower_idem url
  · exact strLower_getDomain url

theorem mem_load_of_mem_lines {fs : FS} {fn l x : String} {lines : List String}
    (hf : fs fn = some lines) (hl : l ∈ lines) (hx : x ∈ lineEntries l) :
    x ∈ loadUrlsFromFile fs fn := by
  unfold loadUrlsFromFile
  rw [hf, List.mem_flatten]
  exact ⟨lineEntries l, List.mem_map_of_mem lineEntries hl, hx⟩

/-- Claim C9, amended: sequential double append is idempotent whenever the
recorded entry (the URL's domain, or the lower-cased URL when domain
extraction fails) is a clean bare token — non-empty, free of leading and
trailing whitespace, and containing no `/` (so that the written line
re-loads as itself; the counterexample shows the whitespace condition is
needed, and URL-shaped fallback entries such as `"http://"` violate the
no-slash condition). Under those conditions: the second call leaves the
file system exactly as the first call left it (it re-loads the store,
finds the entry, and writes nothing); after the first call the entry is a
member of the loaded set; and when the entry was not initially present the
file holds the entry line exactly once. -/
theorem appendIfAbsentIdempotent (fs : FS) (df url : String)
    (hstrip : strStrip (saveEntry url) = saveEntry url)
    (hne : saveEntry url ≠ "")
    (hslash : '/' ∉ (saveEntry url).data) :
    saveToDynamicBlacklist (saveToDynamicBlacklist fs df url) df url =
      saveToDynamicBlacklist fs df url
  ∧ saveEntry url ∈ loadUrlsFromFile (saveToDynamicBlacklist fs df url) df
  ∧ (saveEntry url ∉ loadUrlsFromFile fs df →
      ((saveToDynamicBlacklist fs df url df).getD []).count (saveEntry url) = 1) := by
  have hlow : strLower (saveEntry url) = saveEntry url := strLower_saveEntry url
  have hline : lineEntries (saveEntry url) = [saveEntry url] :=
    lineEntries_clean _ hne hstrip hlow hslash
  by_cases hmem : saveEntry url ∈ loadUrlsFromFile fs df
  · have hfix : saveToDynamicBlacklist fs df url = fs := save_of_mem (by rw [hlow]; exact hmem)
    refine ⟨by rw [hfix, hfix], by rw [hfix]; exact hmem, fun habs => absurd hmem habs⟩
  · have hfs1 : saveToDynamicBlacklist fs df url df =
        some ((fs df).getD [] ++ [saveEntry url]) := by
      unfold saveToDynamicBlacklist
      rw [hlow, if_neg hmem, if_pos rfl]
    have hmem1 : saveEntry url ∈ loadUrlsFromFile (saveToDynamicBlacklist fs df url) df := by
      refine mem_load_of_mem_lines hfs1 ?_
        (show saveEntry url ∈ lineEntries (saveEntry url) from by rw [hline]; simp)
      simp
    refine ⟨save_of_mem (by rw [hlow]; exact hmem1), hmem1, ?_⟩
    intro _
    rw [hfs1]
    have hcount0 : ((fs df).getD []).count (saveEntry url) = 0 := by
      rw [List.count_eq_zero]
      intro hmemline
      cases hfd : fs df with
      | none => rw [hfd] at hmemline; exact absurd hmemline (by simp)
      | some lines =>
        rw [hfd] at hmemline
        exact hmem (mem_load_of_mem_lines hfd (by simpa using hmemline)
          (by rw [hline]; simp))
    simp [List.count_append, hcount0, List.count_singleton]

/-- Witness for the amended C9 at a concrete input: an empty store and the
URL `http://example.com`, whose recorded entry `example.com` is a clean
bare token. -/
theorem appendIfAbsentIdempotentWitness :
    saveToDynamicBlacklist (saveToDynamicBlacklist (fun _ => none) "dyn" "http://example.com")
      "dyn" "http://example.com" =
      saveToDynamicBlacklist (fun _ => none) "dyn" "http://example.com"
  ∧ saveEntry "http://example.com" ∈
      loadUrlsFromFile (saveToDynamicBlacklist (fun _ => none) "dyn" "http://example.com") "dyn"
  ∧ (saveEntry "http://example.com" ∉ loadUrlsFromFile (fun _ => none) "dyn" →
      ((saveToDynamicBlacklist (fun _ => none) "dyn" "http://example.com" "dyn").getD
          []).count (saveEntry "http://example.com") = 1) :=
  appendIfAbsentIdempotent (fun _ => none) "dyn" "http://example.com"
    (by decide) (by decide) (by decide)

/-! ## Lower-case-fixed character lists -/

/-- All characters of `l` are fixed by lower-casing. -/
def lf (l : List Char) : Prop := ∀ c ∈ l, lowerChar c = c

theorem lf_iff {l : List Char} : pyLower l = l ↔ lf l := by
  unfold pyLower lf
  constructor
  · intro h c hc
    induction l with
    | nil => exact absurd hc (by simp)
    | cons d t ih =>
      rw [List.map_cons, List.cons.injEq] at h
      rcases List.mem_cons.mp hc with rfl | hct
      · exact h.1
      · exact ih h.2 hct
  · intro h
    induction l with
    | nil => rfl
    | cons d t ih =>
      rw [List.map_cons, h d (by simp), ih (fun c hc => h c (List.mem_cons_of_mem d hc))]

theorem lf_pyLower (l : List Char) : lf (pyLower l) := by
  intro c hc
  rw [pyLower, List.mem_map] at hc
  obtain ⟨c0, _, rfl⟩ := hc
  exact lowerChar_idem c0

theorem lf_sublist {l l' : List Char} (hs : List.Sublist l' l) (h : lf l) : lf l' :=
  fun c hc => h c (hs.mem hc)

theorem lf_append {a b : List Char} (ha : lf a) (hb : lf b) : lf (a ++ b) := by
  intro c hc
  rcases List.mem_append.mp hc with h | h
  · exact ha c h
  · exact hb c h

theorem lf_cons {c : Char} {l : List Char} (hc : lowerChar c = c) (h : lf l) :
    lf (c :: l) := by
  intro d hd
  rcases List.mem_cons.mp hd with rfl | hdl
  · exact hc
  · exact h d hdl

theorem lf_nil : lf [] := fun c hc => absurd hc (by simp)

theorem lf_httpPre : lf httpPre := by
  unfold lf
  decide

theorem lf_reverse {l : List Char} (h : lf l) : lf l.reverse :=
  fun c hc => h c (List.mem_reverse.mp hc)

theorem lf_afterLastAt {l : List Char} (h : lf l) : lf (afterLastAt l) :=
  lf_reverse (lf_sublist (List.takeWhile_sublist _) (lf_reverse h))

theorem lf_pyStrip {l : List Char} (h : lf l) : lf (pyStrip l) :=
  lf_reverse (lf_sublist (List.dropWhile_sublist _)
    (lf_reverse (lf_sublist (List.dropWhile_sublist _) h)))

theorem lf_preUrl {l : List Char} (h : lf l) : lf (preUrl l) :=
  lf_sublist (List.filter_sublist _) (lf_sublist (List.dropWhile_sublist _) h)

theorem lf_splitScheme_snd {l : List Char} (h : lf l) : lf (splitScheme l).2 := by
  unfold splitScheme
  cases hd : l.dropWhile (fun c => c ≠ ':') with
  | nil => exact h
  | cons c r =>
    have hsub : List.Sublist r l := by
      have h2 := List.dropWhile_sublist (l := l) (fun c => c ≠ ':')
      rw [hd] at h2
      exact (List.sublist_cons_self c r).trans h2
    show lf (if schemeOk (l.takeWhile (fun c => c ≠ ':')) = true then
      (pyLower (l.takeWhile (fun c => c ≠ ':')), r) else ([], l)).2
    by_cases hok : schemeOk (l.takeWhile (fun c => c ≠ ':')) = true
    · rw [if_pos hok]
      exact lf_sublist hsub h
    · rw [if_neg hok]
      exact h

theorem lf_pyUrlsplit {u sc nl pa q f : List Char} (hu : lf u)
    (hp : pyUrlsplit u = some (sc, nl, pa, q, f)) : lf nl ∧ lf pa ∧ lf q := by
  have hrest : lf (splitScheme (preUrl u)).2 := lf_splitScheme_snd (lf_preUrl hu)
  unfold pyUrlsplit at hp
  split at hp
  · unfold pyUrlsplitNetloc at hp
    split at hp
    · exact absurd hp (by simp)
    · split at hp
      · exact absurd hp (by simp)
      · simp only [Option.some.injEq, Prod.mk.injEq] at hp
        obtain ⟨-, h2, h3, h4, -⟩ := hp
        have hr2 : lf ((splitScheme (preUrl u)).2.drop 2) :=
          lf_sublist (List.drop_sublist _ _) hrest
        have hrr : lf (((splitScheme (preUrl u)).2.drop 2).dropWhile notDelim) :=
          lf_sublist (List.dropWhile_sublist _) hr2
        refine ⟨?_, ?_, ?_⟩
        · rw [← h2]
          exact lf_sublist (List.takeWhile_sublist _) hr2
        · rw [← h3]
          unfold splitPQF splitFirst
          exact lf_sublist (List.takeWhile_sublist _)
            (lf_sublist (List.takeWhile_sublist _) hrr)
        · rw [← h4]
          unfold splitPQF splitFirst
          exact lf_sublist ((List.tail_sublist _).trans (List.dropWhile_sublist _))
            (lf_sublist (List.takeWhile_sublist _) hrr)
  · simp only [Option.some.injEq, Prod.mk.injEq] at hp
    obtain ⟨-, h2, h3, h4, -⟩ := hp
    refine ⟨?_, ?_, ?_⟩
    · rw [← h2]
      exact lf_nil
    · rw [← h3]
      unfold splitPQF splitFirst
      exact lf_sublist (List.takeWhile_sublist _)
        (lf_sublist (List.takeWhile_sublist _) hrest)
    · rw [← h4]
      unfold splitPQF splitFirst
      exact lf_sublist ((List.tail_sublist _).trans (List.dropWhile_sublist _))
        (lf_sublist (List.takeWhile_sublist _) hrest)

theorem withFrag_nil (u : List Char) : withFrag u [] = u := by
  unfold withFrag
  simp

theorem lf_withQuery {u q : List Char} (hu : lf u) (hq : lf q) : lf (withQuery u q) := by
  unfold withQuery
  split
  · exact lf_append hu (lf_cons (by decide) hq)
  · exact hu

theorem lf_withScheme {s u : List Char} (hs : lf s) (hu : lf u) : lf (withScheme s u) := by
  unfold withScheme
  split
  · exact lf_append hs (lf_cons (by decide) hu)
  · exact hu

theorem lf_unsplitCore {s n p : List Char} (hn : lf n) (hp : lf p) :
    lf (unsplitCore s n p) := by
  unfold unsplitCore
  split
  · refine lf_cons (by decide) (lf_cons (by decide) (lf_append hn ?_))
    split
    · exact lf_cons (by decide) hp
    · exact hp
  · exact hp

theorem lf_normAssemble {sc nl pa q f : List Char} (hpa : lf pa) (hq : lf q) :
    lf (normAssemble (sc, nl, pa, q, f)) := by
  have hN : lf (normNetloc nl) := by
    unfold normNetloc
    split
    · exact lf_afterLastAt (lf_pyLower nl)
    · exact lf_pyLower nl
  have hP : lf (normPath pa) := by
    unfold normPath
    split
    · exact lf_nil
    · exact lf_reverse (lf_sublist (List.dropWhile_sublist _) (lf_reverse hpa))
  show lf (withFrag (withQuery (withScheme (normScheme sc)
    (unsplitCore (normScheme sc) (normNetloc nl) (normPath pa))) q) [])
  rw [withFrag_nil]
  exact lf_withQuery (lf_withScheme (lf_pyLower _) (lf_unsplitCore hN hP)) hq

/-- `normalize_url` of a lower-case string is lower-case. -/
theorem lf_normalize {x y : List Char} (hx : lf x) (h : normalizeUrlL x = some y) :
    lf y := by
  unfold normalizeUrlL at h
  split at h
  · injection h with h'
    rw [← h']
    exact lf_nil
  · have hurl2 : lf (if schemeRegexMatch (pyStrip x) then pyStrip x
        else httpPre ++ pyStrip x) := by
      split
      · exact lf_pyStrip hx
      · exact lf_append lf_httpPre (lf_pyStrip hx)
    cases hp : pyUrlsplit (if schemeRegexMatch (pyStrip x) then pyStrip x
        else httpPre ++ pyStrip x) with
    | none => rw [hp] at h; exact Option.noConfusion h
    | some t =>
      rw [hp] at h
      injection h with h'
      rw [← h']
      obtain ⟨sc, nl, pa, q, f⟩ := t
      obtain ⟨-, hpa, hq⟩ := lf_pyUrlsplit hurl2 hp
      exact lf_normAssemble hpa hq

/-! ## Claim C10: loaded list entries are entirely lower-case -/

theorem strLower_eq_iff_lf {e : String} : strLower e = e ↔ lf e.data := by
  unfold strLower
  rw [← lf_iff]
  constructor
  · intro h
    exact congrArg String.data h
  · intro h
    exact congrArg String.mk h

/-- Claim C10: every string in the set returned by `load_urls_from_file`
is entirely lower-case (raw lines are lower-cased before insertion or
normalization, and normalizing an all-lower-case string yields an
all-lower-case string), so the pipeline's membership tests against the
lower-cased query and extracted domain are insensitive to the letter case
of stored entries. -/
theorem loadedEntriesLowercase (fs : FS) (fn : String) (e : String)
    (h : e ∈ loadUrlsFromFile fs fn) : strLower e = e := by
  unfold loadUrlsFromFile at h
  cases hf : fs fn with
  | none => rw [hf] at h; exact absurd h (by simp)
  | some lines =>
    rw [hf, List.mem_flatten] at h
    obtain ⟨lst, hlst, he⟩ := h
    rw [List.mem_map] at hlst
    obtain ⟨line, -, rfl⟩ := hlst
    unfold lineEntries at he
    split at he
    · exact absurd he (by simp)
    · have hlowline : lf (strLower (strStrip line)).data := by
        unfold strLower
        exact lf_pyLower _
      split at he
      · cases hm : normalizeUrlL (strLower (strStrip line)).data with
        | none =>
          rw [hm] at he
          rcases List.mem_singleton.mp he with rfl
          exact strLower_idem _
        | some norm =>
          rw [hm] at he
          rcases List.mem_cons.mp he with rfl | he2
          · exact strLower_eq_iff_lf.mpr (lf_normalize hlowline hm)
          · split at he2
            · rcases List.mem_singleton.mp he2 with rfl
              exact strLower_getDomain _
            · exact absurd he2 (by simp)
      · rcases List.mem_singleton.mp he with rfl
        exact strLower_idem _

/-- Witness for C10: a concrete mixed-case file loads lower-case entries;
membership of the lower-cased domain succeeds for a mixed-case stored
line. -/
theorem loadedEntriesLowercaseWitness :
    ("http://example.com/path" : String) ∈
      loadUrlsFromFile (fun _ => some ["HTTP://Example.COM/Path/"]) "f"
  ∧ strLower "http://example.com/path" = "http://example.com/path" :=
  ⟨by decide,
   loadedEntriesLowercase (fun _ => some ["HTTP://Example.COM/Path/"]) "f"
     "http://example.com/path" (by decide)⟩

/-! ## Claim C3 (amended): conditional idempotence of normalization -/

/-- The authority (netloc) component a string re-splits into; `""` when
`urlsplit` raises. -/
def netlocOfStr (u : String) : String :=
  match pyUrlsplit u.data with
  | none => ""
  | some (_, nl, _, _, _) => ⟨nl⟩

/-- The shape of a scheme produced by normalization: non-empty, leading
ASCII letter, scheme characters only, fixed under lower-casing. -/
def schemeShape (S : List Char) : Prop :=
  S ≠ [] ∧ asciiAlpha (S.headD ' ') = true ∧ S.all isSchemeChar = true ∧ pyLower S = S

/-- Characters that can appear in a normalized path-or-authority segment:
no query/fragment delimiters and no tab/CR/LF. -/
def cleanPart (l : List Char) : Prop :=
  ∀ c ∈ l, c ≠ '?' ∧ c ≠ '#' ∧ c ≠ '\t' ∧ c ≠ '\r' ∧ c ≠ '\n'

/-- Characters that can appear in a normalized query: no fragment
delimiter and no tab/CR/LF. -/
def cleanQ (l : List Char) : Prop :=
  ∀ c ∈ l, c ≠ '#' ∧ c ≠ '\t' ∧ c ≠ '\r' ∧ c ≠ '\n'

theorem dropWhile_head_false {p : Char → Bool} {l : List Char} {c : Char}
    {r : List Char} (h : l.dropWhile p = c :: r) : p c = false := by
  have := List.head?_dropWhile_not p l
  rw [h] at this
  exact this

theorem rstripSlash_getLast (l : List Char) : (rstripSlash l).getLast? ≠ some '/' := by
  unfold rstripSlash
  intro h
  rw [List.getLast?_reverse] at h
  cases hd : (l.reverse.dropWhile (fun c => c = '/')) with
  | nil => rw [hd] at h; exact Option.noConfusion h
  | cons c r =>
    rw [hd] at h
    have hc : c = '/' := Option.some.inj h
    have := dropWhile_head_false hd
    rw [hc] at this
    simp at this

theorem rstripSlash_eq_of_getLast {l : List Char} (h : l.getLast? ≠ some '/') :
    rstripSlash l = l := by
  unfold rstripSlash
  cases hr : l.reverse with
  | nil =>
    rw [List.reverse_eq_nil_iff.mp hr]
    rfl
  | cons c r =>
    have hc : c ≠ '/' := by
      intro hcon
      apply h
      rw [List.getLast?_eq_head?_reverse, hr, hcon]
      rfl
    rw [List.dropWhile_cons, if_neg (by simp [hc]), ← hr, List.reverse_reverse]

theorem normPath_eq (pa : List Char) : normPath pa = rstripSlash pa := by
  unfold normPath
  rw [if_neg]
  intro hcon
  have := rstripSlash_getLast pa
  rw [hcon] at this
  exact this rfl

/-- `rstripSlash` is a prefix of its argument. -/
theorem rstripSlash_pre (l : List Char) : rstripSlash l <+: l := by
  unfold rstripSlash
  have hs : List.IsSuffix (l.reverse.dropWhile (fun c => c = '/')) l.reverse :=
    List.dropWhile_suffix _
  obtain ⟨t, ht⟩ := hs
  exact ⟨t.reverse, by rw [← List.reverse_append, ht, List.reverse_reverse]⟩

theorem head?_of_pre {l p : List Char} (h : p <+: l) (hp : p ≠ []) :
    p.head? = l.head? := by
  obtain ⟨t, rfl⟩ := h
  cases p with
  | nil => exact absurd rfl hp
  | cons c r => rfl

theorem asciiAlpha_lowerChar {c : Char} (h : asciiAlpha c = true) :
    asciiAlpha (lowerChar c) = true := by
  unfold lowerChar
  split <;> first | decide | exact h

theorem isSchemeChar_lowerChar {c : Char} (h : isSchemeChar c = true) :
    isSchemeChar (lowerChar c) = true := by
  unfold lowerChar
  split <;> first | decide | exact h

theorem notDelim_lowerChar {c : Char} (h : notDelim c = true) :
    notDelim (lowerChar c) = true := by
  unfold lowerChar
  split <;> first | decide | exact h

/-- Tab/CR/LF-free character lists. -/
def noTab (l : List Char) : Prop := ∀ c ∈ l, c ≠ '\t' ∧ c ≠ '\r' ∧ c ≠ '\n'

theorem noTab_sublist {l l' : List Char} (hs : List.Sublist l' l) (h : noTab l) :
    noTab l' := fun c hc => h c (hs.mem hc)

theorem noTab_preUrl (l : List Char) : noTab (preUrl l) := by
  unfold preUrl stripTabsCRLF
  intro c hc
  have := List.of_mem_filter hc
  simp only [decide_eq_true_eq] at this
  push_neg at this
  exact this

theorem splitScheme_snd_sublist (l : List Char) : List.Sublist (splitScheme l).2 l := by
  unfold splitScheme
  cases hd : l.dropWhile (fun c => c ≠ ':') with
  | nil => exact List.Sublist.refl l
  | cons c r =>
    have hsub : List.Sublist r l := by
      have h2 := List.dropWhile_sublist (l := l) (fun c => c ≠ ':')
      rw [hd] at h2
      exact (List.sublist_cons_self c r).trans h2
    show List.Sublist (if schemeOk (l.takeWhile (fun c => c ≠ ':')) = true then
      (pyLower (l.takeWhile (fun c => c ≠ ':')), r) else ([], l)).2 l
    split
    · exact hsub
    · exact List.Sublist.refl l

theorem splitScheme_fst_shape (l : List Char) :
    (splitScheme l).1 = [] ∨ schemeShape (splitScheme l).1 := by
  unfold splitScheme
  cases hd : l.dropWhile (fun c => c ≠ ':') with
  | nil => exact Or.inl rfl
  | cons c r =>
    show (if schemeOk (l.takeWhile (fun c => c ≠ ':')) = true then
        (pyLower (l.takeWhile (fun c => c ≠ ':')), r) else ([], l)).1 = [] ∨
      schemeShape (if schemeOk (l.takeWhile (fun c => c ≠ ':')) = true then
        (pyLower (l.takeWhile (fun c => c ≠ ':')), r) else ([], l)).1
    by_cases hok : schemeOk (l.takeWhile (fun c => c ≠ ':')) = true
    · rw [if_pos hok]
      right
      unfold schemeOk at hok
      simp only [Bool.and_eq_true, decide_eq_true_eq] at hok
      obtain ⟨h1, h2, h3⟩ := hok
      cases hpre : l.takeWhile (fun c => c ≠ ':') with
      | nil => exact absurd hpre h1
      | cons p ps =>
        rw [hpre] at h2 h3
        refine ⟨by simp [pyLower], ?_, ?_, ?_⟩
        · simpa [pyLower, List.headD] using asciiAlpha_lowerChar (by simpa using h2)
        · simp only [pyLower, List.all_map, List.all_eq_true] at h3 ⊢
          intro x hx
          exact isSchemeChar_lowerChar (by simpa using h3 x hx)
        · exact pyLower_idem _
    · rw [if_neg hok]
      exact Or.inl rfl

theorem splitPQF_fst_pre (r : List Char) : (splitPQF r).1 <+: r := by
  unfold splitPQF splitFirst
  exact (List.takeWhile_prefix _).trans (List.takeWhile_prefix _)

theorem mem_splitPQF_fst {r : List Char} {c : Char} (h : c ∈ (splitPQF r).1) :
    c ∈ r ∧ c ≠ '?' ∧ c ≠ '#' := by
  unfold splitPQF splitFirst at h
  refine ⟨((splitPQF_fst_pre r).sublist).mem h, ?_, ?_⟩
  · have := List.mem_takeWhile_imp h
    simpa using this
  · have h2 := (List.takeWhile_sublist (fun d => d ≠ '?')).mem h
    have := List.mem_takeWhile_imp h2
    simpa using this

theorem mem_splitPQF_q {r : List Char} {c : Char} (h : c ∈ (splitPQF r).2.1) :
    c ∈ r ∧ c ≠ '#' := by
  unfold splitPQF splitFirst at h
  have hsub : List.Sublist ((r.takeWhile (fun d => d ≠ '#')).dropWhile (fun d => d ≠ '?')).tail
      (r.takeWhile (fun d => d ≠ '#')) :=
    (List.tail_sublist _).trans (List.dropWhile_sublist _)
  have h2 := hsub.mem h
  refine ⟨(List.takeWhile_sublist _).mem h2, ?_⟩
  have := List.mem_takeWhile_imp h2
  simpa using this

theorem pyUrlsplit_spec {u sc nl pa q f : List Char}
    (hp : pyUrlsplit u = some (sc, nl, pa, q, f)) :
    sc = (splitScheme (preUrl u)).1
  ∧ (∀ c ∈ nl, notDelim c = true) ∧ noTab nl
  ∧ cleanPart pa ∧ cleanQ q
  ∧ (pa = [] ∨ pa.headD ' ' = '/' ∨ nl = []) := by
  have hnoTab2 : noTab (splitScheme (preUrl u)).2 :=
    noTab_sublist (splitScheme_snd_sublist _) (noTab_preUrl u)
  unfold pyUrlsplit at hp
  split at hp
  · unfold pyUrlsplitNetloc at hp
    split at hp
    · exact absurd hp (by simp)
    · split at hp
      · exact absurd hp (by simp)
      · simp only [Option.some.injEq, Prod.mk.injEq] at hp
        obtain ⟨hsc, hnl, hpa, hq, -⟩ := hp
        have hnoTabD : noTab ((splitScheme (preUrl u)).2.drop 2) :=
          noTab_sublist (List.drop_sublist _ _) hnoTab2
        have hnoTabR : noTab (((splitScheme (preUrl u)).2.drop 2).dropWhile notDelim) :=
          noTab_sublist (List.dropWhile_sublist _) hnoTabD
        refine ⟨hsc.symm, ?_, ?_, ?_, ?_, ?_⟩
        · intro c hc
          rw [← hnl] at hc
          exact List.mem_takeWhile_imp hc
        · intro c hc
          rw [← hnl] at hc
          exact hnoTabD c ((List.takeWhile_sublist _).mem hc)
        · intro c hc
          rw [← hpa] at hc
          obtain ⟨hmem, h1, h2⟩ := mem_splitPQF_fst hc
          exact ⟨h1, h2, (hnoTabR c hmem).1, (hnoTabR c hmem).2.1, (hnoTabR c hmem).2.2⟩
        · intro c hc
          rw [← hq] at hc
          obtain ⟨hmem, h2⟩ := mem_splitPQF_q hc
          exact ⟨h2, (hnoTabR c hmem).1, (hnoTabR c hmem).2.1, (hnoTabR c hmem).2.2⟩
        · by_cases hpe : pa = []
          · exact Or.inl hpe
          · refine Or.inr (Or.inl ?_)
            have hpref : pa <+: (((splitScheme (preUrl u)).2.drop 2).dropWhile notDelim) := by
              rw [← hpa]
              exact splitPQF_fst_pre _
            cases hR : (((splitScheme (preUrl u)).2.drop 2).dropWhile notDelim) with
            | nil =>
              rw [hR] at hpref
              exact absurd (List.prefix_nil.mp hpref) hpe
            | cons c r =>
              have hcdelim : notDelim c = false := dropWhile_head_false hR
              have hhead : pa.head? = some c := by
                rw [head?_of_pre (hR ▸ hpref) hpe]
                rfl
              have hcpa : c ∈ pa := List.mem_of_mem_head? (by rw [hhead]; rfl)
              have hcprops : c ≠ '?' ∧ c ≠ '#' := by
                rw [← hpa] at hcpa
                obtain ⟨-, h1, h2⟩ := mem_splitPQF_fst hcpa
                exact ⟨h1, h2⟩
              have : c = '/' ∨ c = '?' ∨ c = '#' := by
                have h2 := hcdelim
                simp only [notDelim, decide_eq_false_iff_not, not_not] at h2
                tauto
              have hc' : c = '/' := by
                rcases this with h | h | h
                · exact h
                · exact absurd h hcprops.1
                · exact absurd h hcprops.2
              rw [List.headD_eq_head?_getD, hhead, hc']
              rfl
  · simp only [Option.some.injEq, Prod.mk.injEq] at hp
    obtain ⟨hsc, hnl, hpa, hq, -⟩ := hp
    refine ⟨hsc.symm, ?_, ?_, ?_, ?_, Or.inr (Or.inr hnl.symm)⟩
    · intro c hc
      rw [← hnl] at hc
      exact absurd hc (by simp)
    · intro c hc
      rw [← hnl] at hc
      exact absurd hc (by simp)
    · intro c hc
      rw [← hpa] at hc
      obtain ⟨hmem, h1, h2⟩ := mem_splitPQF_fst hc
      exact ⟨h1, h2, (hnoTab2 c hmem).1, (hnoTab2 c hmem).2.1, (hnoTab2 c hmem).2.2⟩
    · intro c hc
      rw [← hq] at hc
      obtain ⟨hmem, h2⟩ := mem_splitPQF_q hc
      exact ⟨h2, (hnoTab2 c hmem).1, (hnoTab2 c hmem).2.1, (hnoTab2 c hmem).2.2⟩

theorem normScheme_shape {l : List Char} : schemeShape (normScheme (splitScheme l).1) := by
  rcases splitScheme_fst_shape l with he | hs
  · rw [he]
    unfold normScheme
    rw [if_pos rfl]
    unfold schemeShape
    refine ⟨by decide, by decide, by decide, by decide⟩
  · obtain ⟨h1, h2, h3, h4⟩ := hs
    unfold normScheme
    rw [if_neg h1, h4]
    exact ⟨h1, h2, h3, h4⟩

theorem mem_normNetloc {c : Char} {nl : List Char} (h : c ∈ normNetloc nl) :
    ∃ c0 ∈ nl, lowerChar c0 = c := by
  unfold normNetloc at h
  have h2 : c ∈ pyLower nl := by
    split at h
    · exact mem_afterLastAt h
    · exact h
  rw [pyLower, List.mem_map] at h2
  obtain ⟨c0, hc0, rfl⟩ := h2
  exact ⟨c0, hc0, rfl⟩

theorem normNetloc_no_at (nl : List Char) : '@' ∉ normNetloc nl := by
  unfold normNetloc
  split
  · intro h
    rw [afterLastAt, List.mem_reverse] at h
    have := List.mem_takeWhile_imp h
    simp at this
  · next hnot => exact hnot

theorem normNetloc_nil : normNetloc [] = [] := rfl

theorem withScheme_ne {S u : List Char} (h : S ≠ []) :
    withScheme S u = S ++ ':' :: u := by
  unfold withScheme
  rw [if_pos h]

theorem getLast?_ne_of_not_mem {l : List Char} {c : Char} (h : c ∉ l) :
    l.getLast? ≠ some c := by
  intro hcon
  cases l with
  | nil => exact Option.noConfusion hcon
  | cons a t =>
    rw [List.getLast?_eq_getLast (a :: t) (by simp)] at hcon
    injection hcon with h'
    exact h (h' ▸ List.getLast_mem (by simp))

theorem notDelim_clean {l : List Char} (hd : ∀ c ∈ l, notDelim c = true)
    (ht : noTab l) : cleanPart l := by
  intro c hc
  have h1 := hd c hc
  simp only [notDelim, decide_eq_true_eq] at h1
  push_neg at h1
  exact ⟨h1.2.1, h1.2.2, (ht c hc).1, (ht c hc).2.1, (ht c hc).2.2⟩

theorem noslash_of_notDelim {l : List Char} (hd : ∀ c ∈ l, notDelim c = true) :
    '/' ∉ l := by
  intro h
  have := hd '/' h
  simp [notDelim] at this

theorem take_two_shape {P : List Char} (h : P.take 2 = ['/', '/']) :
    ∃ m, P = '/' :: '/' :: m := by
  cases P with
  | nil => exact absurd h (by simp)
  | cons a t =>
    cases t with
    | nil => exact absurd h (by simp)
    | cons b r =>
      simp only [List.take_succ_cons, List.take_zero] at h
      injection h with h1 h2
      injection h2 with h2 h3
      exact ⟨r, by rw [h1, h2]⟩

/-- Structure of every non-empty `normalize_url` output: a well-formed
scheme, followed by `:`, and then either an authority marker `//` with a
clean remainder not ending in `/`, or a path whose first two characters
are not `//`; an optional `?query` tail. -/
theorem normalize_shape {x y : List Char} (h : normalizeUrlL x = some y) :
    y = [] ∨
    (∃ S W Q, y = withQuery (S ++ ':' :: '/' :: '/' :: W) Q ∧ schemeShape S ∧
      cleanPart W ∧ W.getLast? ≠ some '/' ∧ cleanQ Q) ∨
    (∃ S P Q, y = withQuery (S ++ ':' :: P) Q ∧ schemeShape S ∧
      P.take 2 ≠ ['/', '/'] ∧ cleanPart P ∧ cleanQ Q) := by
  unfold normalizeUrlL at h
  split at h
  · injection h with h'
    exact Or.inl h'.symm
  · right
    cases hp : pyUrlsplit (if schemeRegexMatch (pyStrip x) then pyStrip x
        else httpPre ++ pyStrip x) with
    | none => rw [hp] at h; exact Option.noConfusion h
    | some t =>
      rw [hp] at h
      injection h with h'
      obtain ⟨sc, nl, pa, q, f⟩ := t
      obtain ⟨hsc, hnd, hnt, hcp, hcq, hph⟩ := pyUrlsplit_spec hp
      have hS : schemeShape (normScheme sc) := by
        rw [hsc]
        exact normScheme_shape
      have hSne : normScheme sc ≠ [] := hS.1
      have hNd : ∀ c ∈ normNetloc nl, notDelim c = true := by
        intro c hc
        obtain ⟨c0, hc0, rfl⟩ := mem_normNetloc hc
        exact notDelim_lowerChar (hnd c0 hc0)
      have hNt : noTab (normNetloc nl) := by
        intro c hc
        obtain ⟨c0, hc0, rfl⟩ := mem_normNetloc hc
        obtain ⟨t1, t2, t3⟩ := hnt c0 hc0
        refine ⟨?_, ?_, ?_⟩
        · intro hcon; exact t1 (lowerChar_eq_of_not_lower (by decide) hcon)
        · intro hcon; exact t2 (lowerChar_eq_of_not_lower (by decide) hcon)
        · intro hcon; exact t3 (lowerChar_eq_of_not_lower (by decide) hcon)
      have hNclean : cleanPart (normNetloc nl) := notDelim_clean hNd hNt
      have hPP : normPath pa = rstripSlash pa := normPath_eq pa
      have hPclean : cleanPart (normPath pa) := by
        intro c hc
        rw [hPP] at hc
        exact hcp c ((rstripSlash_pre pa).sublist.mem hc)
      have hPlast : (normPath pa).getLast? ≠ some '/' := by
        rw [hPP]
        exact rstripSlash_getLast pa
      have hPhead : normPath pa = [] ∨ (normPath pa).headD ' ' = '/' ∨ nl = [] := by
        rcases hph with he | hh | hn
        · left
          rw [hPP, he]
          rfl
        · by_cases hPe : normPath pa = []
          · exact Or.inl hPe
          · refine Or.inr (Or.inl ?_)
            rw [List.headD_eq_head?_getD, hPP,
              head?_of_pre (rstripSlash_pre pa) (by rw [← hPP]; exact hPe)]
            rw [List.headD_eq_head?_getD] at hh
            exact hh
        · exact Or.inr (Or.inr hn)
      rw [← h']
      show _ ∨ _
      have hy : normAssemble (sc, nl, pa, q, f) =
          withQuery (withScheme (normScheme sc)
            (unsplitCore (normScheme sc) (normNetloc nl) (normPath pa))) q :=
        withFrag_nil _
      by_cases hN : normNetloc nl ≠ []
      · -- authority present: core = // (N ++ P)
        have hPadj : (if normPath pa ≠ [] ∧ (normPath pa).headD ' ' ≠ '/'
            then '/' :: normPath pa else normPath pa) = normPath pa := by
          rcases hPhead with he | hh | hn
          · rw [if_neg (fun hcc => hcc.1 he)]
          · rw [if_neg (fun hcc => hcc.2 hh)]
          · exact absurd (by rw [hn]; rfl) hN
        have hcore : unsplitCore (normScheme sc) (normNetloc nl) (normPath pa) =
            '/' :: '/' :: (normNetloc nl ++ normPath pa) := by
          unfold unsplitCore
          rw [if_pos (Or.inl hN), hPadj]
        left
        refine ⟨normScheme sc, normNetloc nl ++ normPath pa, q, ?_, hS, ?_, ?_, hcq⟩
        · rw [hy, hcore, withScheme_ne hSne]
        · intro c hc
          rcases List.mem_append.mp hc with hc' | hc'
          · exact hNclean c hc'
          · exact hPclean c hc'
        · by_cases hPe : normPath pa = []
          · rw [hPe, List.append_nil]
            exact getLast?_ne_of_not_mem (noslash_of_notDelim hNd)
          · rw [List.getLast?_append]
            cases hgl : (normPath pa).getLast? with
            | none => exact absurd (List.getLast?_eq_none_iff.mp hgl) hPe
            | some g =>
              rw [hgl] at hPlast
              simp only [Option.or_some]
              exact hPlast
      · -- no authority from the netloc
        rw [not_not] at hN
        have hcore0 : unsplitCore (normScheme sc) (normNetloc nl) (normPath pa) =
            if normScheme sc ≠ [] ∧ normScheme sc ∈ usesNetloc ∧
                (normPath pa).take 2 ≠ ['/', '/'] then
              '/' :: '/' :: (if normPath pa ≠ [] ∧ (normPath pa).headD ' ' ≠ '/'
                then '/' :: normPath pa else normPath pa)
            else normPath pa := by
          unfold unsplitCore
          rw [hN]
          by_cases hc : normScheme sc ≠ [] ∧ normScheme sc ∈ usesNetloc ∧
              (normPath pa).take 2 ≠ ['/', '/']
          · rw [if_pos (Or.inr hc), if_pos hc]
            rfl
          · rw [if_neg ?_, if_neg hc]
            rintro (hfalse | hc')
            · exact hfalse rfl
            · exact hc hc'
        by_cases hcond : normScheme sc ≠ [] ∧ normScheme sc ∈ usesNetloc ∧
            (normPath pa).take 2 ≠ ['/', '/']
        · left
          refine ⟨normScheme sc,
            (if normPath pa ≠ [] ∧ (normPath pa).headD ' ' ≠ '/'
              then '/' :: normPath pa else normPath pa), q, ?_, hS, ?_, ?_, hcq⟩
          · rw [hy, hcore0, if_pos hcond, withScheme_ne hSne]
          · split
            · intro c hc
              rcases List.mem_cons.mp hc with rfl | hc'
              · exact ⟨by decide, by decide, by decide, by decide, by decide⟩
              · exact hPclean c hc'
            · exact hPclean
          · split
            · next hcc =>
              cases hpp : normPath pa with
              | nil => exact absurd hpp hcc.1
              | cons d ds =>
                rw [List.getLast?_cons_cons, ← hpp]
                exact hPlast
            · exact hPlast
        · by_cases htake : (normPath pa).take 2 = ['/', '/']
          · left
            obtain ⟨m, hm⟩ := take_two_shape htake
            refine ⟨normScheme sc, m, q, ?_, hS, ?_, ?_, hcq⟩
            · rw [hy, hcore0, if_neg hcond, withScheme_ne hSne, hm]
            · intro c hc
              exact hPclean c (by rw [hm]; simp [hc])
            · cases hm' : m with
              | nil => simp
              | cons d ds =>
                have : (normPath pa).getLast? = m.getLast? := by
                  rw [hm, hm', List.getLast?_cons_cons, List.getLast?_cons_cons]
                rw [← hm', ← this]
                exact hPlast
          · right
            refine ⟨normScheme sc, normPath pa, q, ?_, hS, htake, hPclean, hcq⟩
            rw [hy, hcore0, if_neg hcond, withScheme_ne hSne]

/-- An ASCII letter is strictly above `' '` in the character order. -/
theorem alpha_not_le_space {c : Char} (h : asciiAlpha c = true) : ¬ (c ≤ ' ') := by
  intro hle
  unfold asciiAlpha at h
  rw [Char.isAlpha, Bool.or_eq_true] at h
  rw [Char.le_def] at hle
  rcases h with h | h
  · rw [Char.isUpper, Bool.and_eq_true, decide_eq_true_eq, decide_eq_true_eq] at h
    exact absurd (UInt32.le_trans h.1 hle) (by decide)
  · rw [Char.isLower, Bool.and_eq_true, decide_eq_true_eq, decide_eq_true_eq] at h
    exact absurd (UInt32.le_trans h.1 hle) (by decide)

theorem isSchemeChar_noTab {c : Char} (h : isSchemeChar c = true) :
    c ≠ '\t' ∧ c ≠ '\r' ∧ c ≠ '\n' := by
  refine ⟨?_, ?_, ?_⟩ <;> rintro rfl <;> exact absurd h (by decide)

theorem stripTabsCRLF_eq_self {l : List Char} (h : noTab l) : stripTabsCRLF l = l := by
  unfold stripTabsCRLF
  rw [List.filter_eq_self]
  intro c hc
  obtain ⟨h1, h2, h3⟩ := h c hc
  simp [h1, h2, h3]

theorem preUrl_eq_self {l : List Char} (hh : asciiAlpha (l.headD ' ') = true)
    (ht : noTab l) : preUrl l = l := by
  unfold preUrl
  cases l with
  | nil => exact absurd hh (by decide)
  | cons c r =>
    have hc : ¬ (c ≤ ' ') := alpha_not_le_space hh
    rw [List.dropWhile_cons, if_neg (by simpa using hc)]
    exact stripTabsCRLF_eq_self ht

theorem schemeOk_of_shape {S : List Char} (hS : schemeShape S) : schemeOk S = true := by
  obtain ⟨h1, h2, h3, -⟩ := hS
  have h2' : asciiAlpha (S.head?.getD ' ') = true := by
    rw [← List.headD_eq_head?_getD]
    exact h2
  unfold schemeOk
  simp [h1, h2', h3]

theorem splitScheme_shape_eq {S R : List Char} (hS : schemeShape S) :
    splitScheme (S ++ ':' :: R) = (S, R) := by
  have h3 := hS.2.2.1
  have hnc : ∀ c ∈ S, ¬ (c = ':') := by
    intro c hc hcon
    rw [List.all_eq_true] at h3
    have := h3 c hc
    rw [hcon] at this
    exact absurd this (by decide)
  have hdropS : S.dropWhile (fun c => c ≠ ':') = [] := by
    rw [List.dropWhile_eq_nil_iff]
    intro c hc
    simpa using hnc c hc
  have htakeS : S.takeWhile (fun c => c ≠ ':') = S := by
    rw [List.takeWhile_eq_self_iff]
    intro c hc
    simpa using hnc c hc
  have hdrop : (S ++ ':' :: R).dropWhile (fun c => c ≠ ':') = ':' :: R := by
    rw [List.dropWhile_append, hdropS]
    simp
  have htake : (S ++ ':' :: R).takeWhile (fun c => c ≠ ':') = S := by
    rw [List.takeWhile_append, if_pos (by rw [htakeS])]
    simp
  unfold splitScheme
  rw [hdrop]
  simp only [htake]
  rw [if_pos (schemeOk_of_shape hS), hS.2.2.2]

theorem noTab_append {a b : List Char} (ha : noTab a) (hb : noTab b) : noTab (a ++ b) := by
  intro c hc
  rcases List.mem_append.mp hc with h | h
  · exact ha c h
  · exact hb c h

theorem noTab_cons {c0 : Char} {l : List Char}
    (h0 : c0 ≠ '\t' ∧ c0 ≠ '\r' ∧ c0 ≠ '\n') (h : noTab l) : noTab (c0 :: l) := by
  intro c hc
  rcases List.mem_cons.mp hc with rfl | h'
  · exact h0
  · exact h c h'

theorem noTab_schemeShape {S : List Char} (hS : schemeShape S) : noTab S := by
  intro c hc
  have h3 := hS.2.2.1
  rw [List.all_eq_true] at h3
  exact isSchemeChar_noTab (h3 c hc)

theorem noTab_cleanPart {l : List Char} (h : cleanPart l) : noTab l :=
  fun c hc => ⟨(h c hc).2.2.1, (h c hc).2.2.2.1, (h c hc).2.2.2.2⟩

theorem noTab_cleanQ {l : List Char} (h : cleanQ l) : noTab l :=
  fun c hc => ⟨(h c hc).2.1, (h c hc).2.2.1, (h c hc).2.2.2⟩

theorem noTab_qp {Q : List Char} (hQ : cleanQ Q) :
    noTab (if Q = [] then [] else '?' :: Q) := by
  split
  · exact fun c hc => absurd hc (by simp)
  · exact noTab_cons (by decide) (noTab_cleanQ hQ)

theorem headD_append_of_ne {S : List Char} (h : S ≠ []) (X : List Char) (d : Char) :
    (S ++ X).headD d = S.headD d := by
  cases S with
  | nil => exact absurd rfl h
  | cons a t => rfl

/-- `withQuery` written as one append of an optional `?`-prefixed tail. -/
theorem withQuery_eq_append (u Q : List Char) :
    withQuery u Q = u ++ (if Q = [] then [] else '?' :: Q) := by
  unfold withQuery
  by_cases h : Q = []
  · rw [if_neg (fun hc => hc h), if_pos h, List.append_nil]
  · rw [if_pos h, if_neg h]

theorem splitFirst_not_mem {c : Char} {l : List Char} (h : c ∉ l) :
    splitFirst c l = (l, []) := by
  unfold splitFirst
  have htake : l.takeWhile (fun d => d ≠ c) = l := by
    rw [List.takeWhile_eq_self_iff]
    intro x hx
    simp only [ne_eq, decide_eq_true_eq]
    intro hc
    exact h (hc ▸ hx)
  have hdrop : l.dropWhile (fun d => d ≠ c) = [] := by
    rw [List.dropWhile_eq_nil_iff]
    intro x hx
    simp only [ne_eq, decide_eq_true_eq]
    intro hc
    exact h (hc ▸ hx)
  rw [htake, hdrop]
  rfl

theorem splitFirst_append_cons {c : Char} {p s : List Char} (h : c ∉ p) :
    splitFirst c (p ++ c :: s) = (p, s) := by
  unfold splitFirst
  have htakeS : p.takeWhile (fun d => d ≠ c) = p := by
    rw [List.takeWhile_eq_self_iff]
    intro x hx
    simp only [ne_eq, decide_eq_true_eq]
    intro hc
    exact h (hc ▸ hx)
  have hdropS : p.dropWhile (fun d => d ≠ c) = [] := by
    rw [List.dropWhile_eq_nil_iff]
    intro x hx
    simp only [ne_eq, decide_eq_true_eq]
    intro hc
    exact h (hc ▸ hx)
  have htake : (p ++ c :: s).takeWhile (fun d => d ≠ c) = p := by
    rw [List.takeWhile_append, if_pos (by rw [htakeS]), List.takeWhile_cons,
      if_neg (by simp), List.append_nil]
  have hdrop : (p ++ c :: s).dropWhile (fun d => d ≠ c) = c :: s := by
    rw [List.dropWhile_append, hdropS, if_pos List.isEmpty_nil, List.dropWhile_cons,
      if_neg (by simp)]
  rw [htake, hdrop]
  rfl

/-- Evaluation of the fragment/query split on a clean path followed by an
optional `?`-prefixed query. -/
theorem splitPQF_eval {p Q : List Char} (hp1 : '?' ∉ p) (hp2 : '#' ∉ p)
    (hQ : '#' ∉ Q) :
    splitPQF (p ++ (if Q = [] then [] else '?' :: Q)) = (p, Q, []) := by
  by_cases h : Q = []
  · have hqp : (if Q = [] then [] else '?' :: Q) = [] := if_pos h
    rw [hqp, List.append_nil]
    unfold splitPQF
    rw [splitFirst_not_mem hp2]
    show ((splitFirst '?' p).1, (splitFirst '?' p).2, ([] : List Char)) = (p, Q, [])
    rw [splitFirst_not_mem hp1, h]
  · have hqp : (if Q = [] then [] else '?' :: Q) = '?' :: Q := if_neg h
    rw [hqp]
    have h2 : '#' ∉ p ++ '?' :: Q := by
      intro hc
      rcases List.mem_append.mp hc with hc | hc
      · exact hp2 hc
      · rcases List.mem_cons.mp hc with hc | hc
        · exact absurd hc (by decide)
        · exact hQ hc
    unfold splitPQF
    rw [splitFirst_not_mem h2]
    show ((splitFirst '?' (p ++ '?' :: Q)).1, (splitFirst '?' (p ++ '?' :: Q)).2,
      ([] : List Char)) = (p, Q, [])
    rw [splitFirst_append_cons hp1]

/-- Splitting the authority at the first delimiter ignores an appended
optional `?`-prefixed query, which starts with a delimiter itself. -/
theorem takeWhile_notDelim_qpart (W Q : List Char) :
    ((W ++ (if Q = [] then [] else '?' :: Q)).takeWhile notDelim
      = W.takeWhile notDelim) ∧
    ((W ++ (if Q = [] then [] else '?' :: Q)).dropWhile notDelim
      = W.dropWhile notDelim ++ (if Q = [] then [] else '?' :: Q)) := by
  by_cases h : Q = []
  · simp [h]
  · rw [if_neg h]
    constructor
    · rw [List.takeWhile_append]
      by_cases hW : (W.takeWhile notDelim).length = W.length
      · rw [if_pos hW]
        have hWeq : W.takeWhile notDelim = W :=
          (List.takeWhile_prefix notDelim).eq_of_length hW
        rw [List.takeWhile_cons, if_neg (by decide), List.append_nil, hWeq]
      · rw [if_neg hW]
    · rw [List.dropWhile_append]
      by_cases hW : (W.dropWhile notDelim).isEmpty = true
      · rw [if_pos hW]
        have h1 : W.dropWhile notDelim = [] := List.isEmpty_iff.mp hW
        rw [h1, List.nil_append, List.dropWhile_cons, if_neg (by decide)]
      · rw [if_neg hW]

theorem take2_append_qpart {P : List Char} (Q : List Char)
    (h : P.take 2 ≠ ['/', '/']) :
    ¬ ((P ++ (if Q = [] then [] else '?' :: Q)).take 2 = ['/', '/']) := by
  by_cases hq : Q = []
  · rw [if_pos hq, List.append_nil]
    exact h
  · rw [if_neg hq]
    cases P with
    | nil =>
      intro hc
      rw [List.nil_append] at hc
      have h2 : ('?' :: Q.take 1) = ['/', '/'] := hc
      injection h2 with h3 _
      exact absurd h3 (by decide)
    | cons a t =>
      cases t with
      | nil =>
        intro hc
        rw [List.cons_append, List.nil_append] at hc
        have h2 : ([a, '?'] : List Char) = ['/', '/'] := hc
        injection h2 with h3 h4
        injection h4 with h5 _
        exact absurd h5 (by decide)
      | cons b r =>
        intro hc
        apply h
        rw [List.cons_append, List.cons_append] at hc
        have h2 : ([a, b] : List Char) = ['/', '/'] := hc
        show ([a, b] : List Char) = ['/', '/']
        exact h2

/-- The scheme regex of `normalize_url` matches a reassembled URL with an
authority marker. -/
theorem schemeRegexMatch_scheme_slashes {S R : List Char} (hS : schemeShape S) :
    schemeRegexMatch (S ++ ':' :: '/' :: '/' :: R) = true := by
  obtain ⟨h1, h2, h3, -⟩ := hS
  have hd0 : S.dropWhile isSchemeChar = [] := by
    rw [List.dropWhile_eq_nil_iff]
    rw [List.all_eq_true] at h3
    exact h3
  have hdrop : (S ++ ':' :: '/' :: '/' :: R).dropWhile isSchemeChar
      = ':' :: '/' :: '/' :: R := by
    rw [List.dropWhile_append, hd0, if_pos List.isEmpty_nil, List.dropWhile_cons,
      if_neg (by decide)]
  cases S with
  | nil => exact absurd rfl h1
  | cons a t =>
    rw [List.cons_append] at hdrop ⊢
    unfold schemeRegexMatch
    simp only [hdrop, decide_eq_true_eq]
    exact ⟨h2, rfl⟩

/-- Evaluation of the netloc arm of `urlsplit` on a clean path and an
optional `?`-prefixed query. -/
theorem pyUrlsplitNetloc_eval {S N dW Q : List Char}
    (h1 : '?' ∉ dW) (h2 : '#' ∉ dW) (h3 : '#' ∉ Q) :
    pyUrlsplitNetloc S N (dW ++ (if Q = [] then [] else '?' :: Q)) =
      if (('[' ∈ N) ≠ (']' ∈ N)) then none
      else if '[' ∈ N ∧ ']' ∈ N ∧ ¬ bracketedHostOk (bracketContent N) then none
      else some (S, N, dW, Q, []) := by
  unfold pyUrlsplitNetloc
  rw [splitPQF_eval h1 h2 h3]

/-- Re-parsing a reassembled URL with an authority marker: `urlsplit` takes
the scheme back off, splits the authority at the first delimiter, and hands
the remainder to the fragment/query split. -/
theorem pyUrlsplit_renorm1 {S W Q : List Char} (hS : schemeShape S)
    (hW : cleanPart W) (hQ : cleanQ Q) :
    pyUrlsplit (withQuery (S ++ ':' :: '/' :: '/' :: W) Q) =
      pyUrlsplitNetloc S (W.takeWhile notDelim)
        (W.dropWhile notDelim ++ (if Q = [] then [] else '?' :: Q)) := by
  rw [withQuery_eq_append]
  have hform : (S ++ ':' :: '/' :: '/' :: W) ++ (if Q = [] then [] else '?' :: Q)
      = S ++ ':' :: '/' :: '/' :: (W ++ (if Q = [] then [] else '?' :: Q)) := by
    simp
  rw [hform]
  have hnoTab : noTab (S ++ ':' :: '/' :: '/' ::
      (W ++ (if Q = [] then [] else '?' :: Q))) :=
    noTab_append (noTab_schemeShape hS) (noTab_cons (by decide) (noTab_cons (by decide)
      (noTab_cons (by decide) (noTab_append (noTab_cleanPart hW) (noTab_qp hQ)))))
  have hhead : asciiAlpha ((S ++ ':' :: '/' :: '/' ::
      (W ++ (if Q = [] then [] else '?' :: Q))).headD ' ') = true := by
    rw [headD_append_of_ne hS.1]
    exact hS.2.1
  unfold pyUrlsplit
  rw [preUrl_eq_self hhead hnoTab, splitScheme_shape_eq hS]
  show pyUrlsplitNetloc S
      ((W ++ (if Q = [] then [] else '?' :: Q)).takeWhile notDelim)
      ((W ++ (if Q = [] then [] else '?' :: Q)).dropWhile notDelim) = _
  rw [(takeWhile_notDelim_qpart W Q).1, (takeWhile_notDelim_qpart W Q).2]

/-- Re-parsing a reassembled URL without an authority marker: `urlsplit`
reports an empty netloc. -/
theorem pyUrlsplit_renorm2 {S P Q : List Char} (hS : schemeShape S)
    (hP : cleanPart P) (ht2 : P.take 2 ≠ ['/', '/']) (hQ : cleanQ Q) :
    ∃ pa q f, pyUrlsplit (withQuery (S ++ ':' :: P) Q) = some (S, [], pa, q, f) := by
  rw [withQuery_eq_append]
  have hform : (S ++ ':' :: P) ++ (if Q = [] then [] else '?' :: Q)
      = S ++ ':' :: (P ++ (if Q = [] then [] else '?' :: Q)) := by
    simp
  rw [hform]
  have hnoTab : noTab (S ++ ':' :: (P ++ (if Q = [] then [] else '?' :: Q))) :=
    noTab_append (noTab_schemeShape hS) (noTab_cons (by decide)
      (noTab_append (noTab_cleanPart hP) (noTab_qp hQ)))
  have hhead : asciiAlpha ((S ++ ':' ::
      (P ++ (if Q = [] then [] else '?' :: Q))).headD ' ') = true := by
    rw [headD_append_of_ne hS.1]
    exact hS.2.1
  have hstep : pyUrlsplit (S ++ ':' :: (P ++ (if Q = [] then [] else '?' :: Q))) =
      if (P ++ (if Q = [] then [] else '?' :: Q)).take 2 = ['/', '/'] then
        pyUrlsplitNetloc S
          (((P ++ (if Q = [] then [] else '?' :: Q)).drop 2).takeWhile notDelim)
          (((P ++ (if Q = [] then [] else '?' :: Q)).drop 2).dropWhile notDelim)
      else some (S, [], (splitPQF (P ++ (if Q = [] then [] else '?' :: Q))).1,
        (splitPQF (P ++ (if Q = [] then [] else '?' :: Q))).2.1,
        (splitPQF (P ++ (if Q = [] then [] else '?' :: Q))).2.2) := by
    unfold pyUrlsplit
    rw [preUrl_eq_self hhead hnoTab, splitScheme_shape_eq hS]
  rw [hstep, if_neg (take2_append_qpart Q ht2)]
  exact ⟨_, _, _, rfl⟩

/-- C3 (amended): `normalize_url` is idempotent on every output it
produces whose re-parse has a non-empty, already lower-case, userinfo-free
authority and which carries no leading or trailing whitespace — for such
an output `y` of `normalize_url`, `normalize_url(y) = y`. -/
theorem normalizeIdempotentOn (x y : String)
    (hn : normalizeUrl x = some y)
    (hnl : netlocOfStr y ≠ "")
    (hlow : strLower (netlocOfStr y) = netlocOfStr y)
    (hat : '@' ∉ (netlocOfStr y).data)
    (hstrip : strStrip y = y) :
    normalizeUrl y = some y := by
  have hnL : normalizeUrlL x.data = some y.data := by
    unfold normalizeUrl at hn
    cases hx : normalizeUrlL x.data with
    | none =>
      rw [hx] at hn
      exact Option.noConfusion hn
    | some l =>
      rw [hx] at hn
      have h' : (⟨l⟩ : String) = y := Option.some.inj hn
      rw [show l = y.data from congrArg String.data h']
  have hstripL : pyStrip y.data = y.data := congrArg String.data hstrip
  rcases normalize_shape hnL with hy0 | ⟨S, W, Q, hy, hS, hW, hWl, hQ⟩ |
    ⟨S, P, Q, hy, hS, ht2, hP, hQ⟩
  · refine absurd ?_ hnl
    unfold netlocOfStr
    rw [hy0]
    rfl
  · -- authority form: y = scheme://W(?Q)
    have hps0 : pyUrlsplit y.data =
        pyUrlsplitNetloc S (W.takeWhile notDelim)
          (W.dropWhile notDelim ++ (if Q = [] then [] else '?' :: Q)) := by
      rw [hy]
      exact pyUrlsplit_renorm1 hS hW hQ
    have hdW1 : '?' ∉ W.dropWhile notDelim := fun hc =>
      (hW _ ((List.dropWhile_sublist _).mem hc)).1 rfl
    have hdW2 : '#' ∉ W.dropWhile notDelim := fun hc =>
      (hW _ ((List.dropWhile_sublist _).mem hc)).2.1 rfl
    have hQ2 : '#' ∉ Q := fun hc => (hQ _ hc).1 rfl
    rw [pyUrlsplitNetloc_eval hdW1 hdW2 hQ2] at hps0
    by_cases hb1 : (('[' ∈ W.takeWhile notDelim) ≠ (']' ∈ W.takeWhile notDelim))
    · rw [if_pos hb1] at hps0
      refine absurd ?_ hnl
      unfold netlocOfStr
      rw [hps0]
    · rw [if_neg hb1] at hps0
      by_cases hb2 : ('[' ∈ W.takeWhile notDelim ∧ ']' ∈ W.takeWhile notDelim ∧
          ¬ bracketedHostOk (bracketContent (W.takeWhile notDelim)))
      · rw [if_pos hb2] at hps0
        refine absurd ?_ hnl
        unfold netlocOfStr
        rw [hps0]
      · rw [if_neg hb2] at hps0
        have hnet : netlocOfStr y = ⟨W.takeWhile notDelim⟩ := by
          unfold netlocOfStr
          rw [hps0]
        have hNne : W.takeWhile notDelim ≠ [] := by
          intro hc
          apply hnl
          rw [hnet, hc]
        have hlowN : pyLower (W.takeWhile notDelim) = W.takeWhile notDelim := by
          have h0 := hlow
          rw [hnet] at h0
          exact congrArg String.data h0
        have hatN : '@' ∉ W.takeWhile notDelim := by
          have h0 := hat
          rw [hnet] at h0
          exact h0
        have hnS : normScheme S = S := by
          unfold normScheme
          rw [if_neg hS.1, hS.2.2.2]
        have hnN : normNetloc (W.takeWhile notDelim) = W.takeWhile notDelim := by
          unfold normNetloc
          rw [hlowN, if_neg hatN]
        have hdWlast : (W.dropWhile notDelim).getLast? ≠ some '/' := by
          intro hc
          apply hWl
          obtain ⟨pre, hpre⟩ :=
            (List.dropWhile_suffix notDelim : List.IsSuffix (W.dropWhile notDelim) W)
          rw [← hpre, List.getLast?_append, hc]
          rfl
        have hnP : normPath (W.dropWhile notDelim) = W.dropWhile notDelim := by
          rw [normPath_eq, rstripSlash_eq_of_getLast hdWlast]
        have hPadj : (if W.dropWhile notDelim ≠ [] ∧
            (W.dropWhile notDelim).headD ' ' ≠ '/'
            then '/' :: W.dropWhile notDelim else W.dropWhile notDelim)
            = W.dropWhile notDelim := by
          cases hdw : W.dropWhile notDelim with
          | nil => simp
          | cons a t =>
            have ha : notDelim a = false := dropWhile_head_false hdw
            have hmem : a ∈ W := (List.dropWhile_sublist _).mem
              (by rw [hdw]; exact List.mem_cons_self a t)
            have ha' : a = '/' := by
              have h2 := ha
              simp only [notDelim, decide_eq_false_iff_not, not_not] at h2
              have h3 : a = '/' ∨ a = '?' ∨ a = '#' := by tauto
              rcases h3 with h | h | h
              · exact h
              · exact absurd h (hW a hmem).1
              · exact absurd h (hW a hmem).2.1
            rw [if_neg (fun hcc => hcc.2 ha')]
        have hcore : unsplitCore S (W.takeWhile notDelim) (W.dropWhile notDelim)
            = '/' :: '/' :: W := by
          unfold unsplitCore
          rw [if_pos (Or.inl hNne), hPadj, List.takeWhile_append_dropWhile]
        have hassemble : normAssemble (S, W.takeWhile notDelim,
            W.dropWhile notDelim, Q, []) = y.data := by
          show pyUrlunsplit (normScheme S) (normNetloc (W.takeWhile notDelim))
            (normPath (W.dropWhile notDelim)) Q [] = y.data
          unfold pyUrlunsplit
          rw [withFrag_nil, hnS, hnN, hnP, hcore, withScheme_ne hS.1, hy]
        have hyne : y.data ≠ [] := by
          rw [hy, withQuery_eq_append]
          intro hc
          have h1 := (List.append_eq_nil.mp hc).1
          have h2 := (List.append_eq_nil.mp h1).2
          exact List.noConfusion h2
        have hregex : schemeRegexMatch y.data = true := by
          rw [hy, withQuery_eq_append]
          rw [show (S ++ ':' :: '/' :: '/' :: W) ++ (if Q = [] then [] else '?' :: Q)
            = S ++ ':' :: '/' :: '/' :: (W ++ (if Q = [] then [] else '?' :: Q))
            from by simp]
          exact schemeRegexMatch_scheme_slashes hS
        have hLL : normalizeUrlL y.data = some y.data := by
          unfold normalizeUrlL
          rw [hstripL, if_neg hyne, if_pos hregex, hps0]
          show some (normAssemble (S, W.takeWhile notDelim,
            W.dropWhile notDelim, Q, [])) = some y.data
          rw [hassemble]
        show normalizeUrl y = some y
        unfold normalizeUrl
        rw [hLL]
        rfl
  · -- no-authority form: the re-parse has an empty netloc
    refine absurd ?_ hnl
    obtain ⟨pa, q, f, hps⟩ := pyUrlsplit_renorm2 hS hP ht2 hQ
    rw [← hy] at hps
    unfold netlocOfStr
    rw [hps]

/-- Witness for the amended idempotence: the concrete normalization output
`"http://example.com/Path"` satisfies every hypothesis and is a fixed
point of `normalize_url`. -/
theorem normalizeIdempotentOnWitness :
    normalizeUrl "http://example.com/Path" = some "http://example.com/Path" :=
  normalizeIdempotentOn "http://Example.com/Path/" "http://example.com/Path"
    (by decide) (by decide) (by decide) (by decide) (by decide)
